import Mathlib

/-!
Verification of the electron-settings library (`lib/settings.js`).

The development shallowly embeds the library's data model and operations:

* a JSON document model (`Json`), with objects as insertion-ordered
  key/value sequences, as in JavaScript;
* the key-path helpers of `lib/settings.js` (`isKeyPath`,
  `flattenKeyPath`) and the key-path accessor contract of the external
  `key-path-helpers` package (modelled from the spec);
* the codec (`_prepareSettingsData` / `_reconstructSettingsData`),
  with JSON serialization and the symmetric cipher modelled from the
  spec, since `JSON.stringify`/`JSON.parse` and `crypto` are host
  facilities external to the repository;
* the store operations in both calling conventions
  (`get`/`getSync`, `has`/`hasSync`, `set`/`setSync`,
  `delete`/`deleteSync`), with the file system as explicit state.

Errors are explicit `Except` results; the file-system state is threaded
through every operation, and is returned unchanged alongside an error
when an operation fails.
-/

mutual

/-- A JSON-compatible document. Objects are insertion-ordered key/value
sequences, mirroring JavaScript object semantics (`JSON.parse` and
property assignment preserve insertion order). Numbers are modelled as
integers; fractional floating-point formatting is outside the model. -/
inductive Json where
  | null : Json
  | bool (b : Bool) : Json
  | num (n : Int) : Json
  | str (s : List Char) : Json
  | arr (xs : JsonList) : Json
  | obj (kvs : JsonObj) : Json
  deriving DecidableEq

inductive JsonList where
  | nil : JsonList
  | cons (hd : Json) (tl : JsonList) : JsonList
  deriving DecidableEq

inductive JsonObj where
  | nil : JsonObj
  | cons (k : List Char) (v : Json) (tl : JsonObj) : JsonObj
  deriving DecidableEq

end

/-- The opening-brace character of JSON object syntax. -/
def lbrace : Char := Char.ofNat 123

/-- The closing-brace character of JSON object syntax. -/
def rbrace : Char := Char.ofNat 125

/-- Decimal digit character for a value below 10. -/
def decDigitChar (n : Nat) : Char := Char.ofNat (48 + n)

/-- Lowercase hexadecimal digit character for a value below 16. -/
def hexDigitChar (n : Nat) : Char :=
  if n < 10 then Char.ofNat (48 + n) else Char.ofNat (87 + n)

/-- Decimal digits of a natural number, most significant first; the
first argument is recursion fuel, sufficient whenever it exceeds `n`. -/
def natToDigitsF : Nat → Nat → List Char
  | 0, _ => []
  | f + 1, n =>
      if n < 10 then [decDigitChar n]
      else natToDigitsF f (n / 10) ++ [decDigitChar (n % 10)]

/-- Decimal digits of a natural number, most significant first. -/
def natToDigits (n : Nat) : List Char := natToDigitsF (n + 1) n

/-- Decimal rendering of an integer, as produced for JSON numbers. -/
def intToChars (n : Int) : List Char :=
  if n < 0 then '-' :: natToDigits n.natAbs else natToDigits n.toNat

/-- Escape a single character for inclusion in a JSON string literal,
following the quoting algorithm of JSON serialization: quote and
backslash get a backslash escape, the named control characters get
their short escapes, other control characters get a `\u00XX` escape,
and all remaining characters stand for themselves. -/
def escapeChar (c : Char) : List Char :=
  if c = '"' then ['\\', '"']
  else if c = '\\' then ['\\', '\\']
  else if c = Char.ofNat 8 then ['\\', 'b']
  else if c = Char.ofNat 12 then ['\\', 'f']
  else if c = '\n' then ['\\', 'n']
  else if c = '\r' then ['\\', 'r']
  else if c = '\t' then ['\\', 't']
  else if c.toNat < 32 then
    ['\\', 'u', '0', '0', hexDigitChar (c.toNat / 16), hexDigitChar (c.toNat % 16)]
  else [c]

/-- Escape every character of a string body. -/
def escapeStr : List Char → List Char
  | [] => []
  | c :: r => escapeChar c ++ escapeStr r

/-- A quoted JSON string literal. -/
def quoteStr (s : List Char) : List Char := '"' :: (escapeStr s ++ ['"'])

/-- An indentation run of `n` spaces. -/
def mkIndent (n : Nat) : List Char := List.replicate n ' '

/-- Prefix written before each array item or object member: nothing in
compact mode, a newline plus the current indentation when prettifying. -/
def itemPre (gap indent : Nat) : List Char :=
  if gap = 0 then [] else '\n' :: mkIndent indent

/-- Separator between an object key and its value. -/
def colonSep (gap : Nat) : List Char :=
  if gap = 0 then [':'] else [':', ' ']

/-- Whitespace written before the closing bracket of a non-empty
container when prettifying. -/
def closeIndent (gap indent : Nat) : List Char :=
  if gap = 0 then [] else '\n' :: mkIndent indent

mutual

/-- Modelled from the spec: JSON serialization (`JSON.stringify(obj,
null, numSpaces)`), which is a host facility external to the
repository. Serializes the document to JSON text; `gap = 0` produces
the compact form with no extra whitespace, `gap > 0` the pretty form
indented by `gap` spaces per nesting level. -/
def renderJson (gap indent : Nat) : Json → List Char
  | .null => ['n', 'u', 'l', 'l']
  | .bool b => if b then ['t', 'r', 'u', 'e'] else ['f', 'a', 'l', 's', 'e']
  | .num n => intToChars n
  | .str s => quoteStr s
  | .arr .nil => ['[', ']']
  | .arr (.cons h t) =>
      '[' :: (renderItems gap (indent + gap) (.cons h t) ++
        closeIndent gap indent ++ [']'])
  | .obj .nil => [lbrace, rbrace]
  | .obj (.cons k v t) =>
      lbrace :: (renderMembers gap (indent + gap) (.cons k v t) ++
        closeIndent gap indent ++ [rbrace])

/-- Array items, comma-separated, each preceded by `itemPre`. -/
def renderItems (gap indent : Nat) : JsonList → List Char
  | .nil => []
  | .cons h .nil => itemPre gap indent ++ renderJson gap indent h
  | .cons h (.cons h2 t) =>
      itemPre gap indent ++ renderJson gap indent h ++
        ',' :: renderItems gap indent (.cons h2 t)

/-- Object members, comma-separated, each preceded by `itemPre`. -/
def renderMembers (gap indent : Nat) : JsonObj → List Char
  | .nil => []
  | .cons k v .nil =>
      itemPre gap indent ++ quoteStr k ++ colonSep gap ++ renderJson gap indent v
  | .cons k v (.cons k2 v2 t) =>
      itemPre gap indent ++ quoteStr k ++ colonSep gap ++ renderJson gap indent v ++
        ',' :: renderMembers gap indent (.cons k2 v2 t)

end

/-- Whether a character is a decimal digit. -/
def isDigitCh (c : Char) : Bool := decide (48 ≤ c.toNat ∧ c.toNat ≤ 57)

/-- Whether a character is JSON whitespace. -/
def isWsCh (c : Char) : Bool := decide (c = ' ' ∨ c = '\t' ∨ c = '\n' ∨ c = '\r')

/-- Drop leading JSON whitespace. -/
def skipWs : List Char → List Char
  | [] => []
  | c :: r => if isWsCh c then skipWs r else c :: r

/-- Consume a maximal run of decimal digits, accumulating their value. -/
def parseDigits : List Char → Nat → Nat × List Char
  | [], acc => (acc, [])
  | c :: r, acc =>
      if isDigitCh c then parseDigits r (acc * 10 + (c.toNat - 48)) else (acc, c :: r)

/-- Value of a hexadecimal digit character, if it is one. -/
def parseHex (c : Char) : Option Nat :=
  if isDigitCh c then some (c.toNat - 48)
  else if 97 ≤ c.toNat ∧ c.toNat ≤ 102 then some (c.toNat - 87)
  else if 65 ≤ c.toNat ∧ c.toNat ≤ 70 then some (c.toNat - 55)
  else none

/-- The character denoted by a single-character escape, if any. -/
def escCode (e : Char) : Option Char :=
  if e = '"' ∨ e = '\\' ∨ e = '/' then some e
  else if e = 'b' then some (Char.ofNat 8)
  else if e = 'f' then some (Char.ofNat 12)
  else if e = 'n' then some '\n'
  else if e = 'r' then some '\r'
  else if e = 't' then some '\t'
  else none

/-- Parse the body of a JSON string literal, after the opening quote,
up to and including the closing quote. Returns the unescaped contents
and the remaining input. -/
def parseStrBody : Nat → List Char → Option (List Char × List Char)
  | 0, _ => none
  | _ + 1, [] => none
  | fu + 1, c :: r =>
    if c = '"' then some ([], r)
    else if c = '\\' then
      match r with
      | [] => none
      | e :: r2 =>
        if e = 'u' then
          match r2 with
          | h1 :: h2 :: h3 :: h4 :: r3 =>
            match parseHex h1, parseHex h2, parseHex h3, parseHex h4 with
            | some a, some b, some d0, some e0 =>
              match parseStrBody fu r3 with
              | some (cs, r4) =>
                  some (Char.ofNat (4096 * a + 256 * b + 16 * d0 + e0) :: cs, r4)
              | none => none
            | _, _, _, _ => none
          | _ => none
        else
          match escCode e with
          | some ch =>
            match parseStrBody fu r2 with
            | some (cs, r3) => some (ch :: cs, r3)
            | none => none
          | none => none
    else if 32 ≤ c.toNat then
      match parseStrBody fu r with
      | some (cs, r3) => some (c :: cs, r3)
      | none => none
    else none

/-- Parse one complete string-literal body, with fuel ample for its
own input. -/
def parseStrTok (s : List Char) : Option (List Char × List Char) :=
  parseStrBody (s.length + 1) s

mutual

/-- Modelled from the spec: JSON parsing (`JSON.parse`), which is a
host facility external to the repository. Recursive-descent parser for
one JSON value; skips leading whitespace, returns the value and the
remaining input. The first argument is recursion fuel; `parseJson`
supplies enough for any input. -/
def parseVal : Nat → List Char → Option (Json × List Char)
  | 0, _ => none
  | f + 1, s =>
    match skipWs s with
    | [] => none
    | c :: r =>
      if c = lbrace then
        match skipWs r with
        | c2 :: r2 =>
          if c2 = rbrace then some (.obj .nil, r2)
          else
            match parseMembers f r with
            | some (kvs, r3) => some (.obj kvs, r3)
            | none => none
        | [] => none
      else if c = '[' then
        match skipWs r with
        | ']' :: r2 => some (.arr .nil, r2)
        | _ =>
          match parseElems f r with
          | some (xs, r3) => some (.arr xs, r3)
          | none => none
      else if c = '"' then
        match parseStrTok r with
        | some (cs, r2) => some (.str cs, r2)
        | none => none
      else if c = 'n' then
        match r with
        | 'u' :: 'l' :: 'l' :: r2 => some (.null, r2)
        | _ => none
      else if c = 't' then
        match r with
        | 'r' :: 'u' :: 'e' :: r2 => some (.bool true, r2)
        | _ => none
      else if c = 'f' then
        match r with
        | 'a' :: 'l' :: 's' :: 'e' :: r2 => some (.bool false, r2)
        | _ => none
      else if c = '-' then
        match r with
        | c2 :: _ =>
          if isDigitCh c2 then
            let p := parseDigits r 0
            some (.num (-(p.1 : Int)), p.2)
          else none
        | [] => none
      else if isDigitCh c then
        let p := parseDigits (c :: r) 0
        some (.num (p.1 : Int), p.2)
      else none

/-- Parse the comma-separated items of a non-empty array, up to and
including the closing bracket. -/
def parseElems : Nat → List Char → Option (JsonList × List Char)
  | 0, _ => none
  | f + 1, s =>
    match parseVal f s with
    | some (v, r) =>
      match skipWs r with
      | ',' :: r2 =>
        match parseElems f r2 with
        | some (xs, r3) => some (.cons v xs, r3)
        | none => none
      | ']' :: r2 => some (.cons v .nil, r2)
      | _ => none
    | none => none

/-- Parse the comma-separated members of a non-empty object, up to and
including the closing brace. -/
def parseMembers : Nat → List Char → Option (JsonObj × List Char)
  | 0, _ => none
  | f + 1, s =>
    match skipWs s with
    | '"' :: r =>
      match parseStrTok r with
      | some (k, r2) =>
        match skipWs r2 with
        | ':' :: r3 =>
          match parseVal f r3 with
          | some (v, r4) =>
            match skipWs r4 with
            | c5 :: r5 =>
              if c5 = ',' then
                match parseMembers f r5 with
                | some (kvs, r6) => some (.cons k v kvs, r6)
                | none => none
              else if c5 = rbrace then some (.cons k v .nil, r5)
              else none
            | [] => none
          | none => none
        | _ => none
      | none => none
    | _ => none

end

/-- Modelled from the spec: `JSON.parse` on a complete input. Parses
one JSON value and requires only whitespace to remain. -/
def parseJson (s : List Char) : Option Json :=
  match parseVal (s.length + 1) s with
  | some (v, rest) => if skipWs rest = [] then some v else none
  | none => none

/-- Modelled from the spec: keystream underlying the symmetric cipher.
The cipher itself (`crypto.createCipher`/`createDecipher` with the
configured algorithm, default `aes-256-cbc`) is a host facility
external to the repository; the spec requires only that decoding with
the same key inverts encoding. The stream value at position `i` is
derived from the key. -/
def keyStream (key : List Char) (i : Nat) : Nat :=
  key.foldl (fun a c => a * 31 + c.toNat) 7 + 97 * i

/-- Apply the keystream from position `i` onward, one byte at a time. -/
def cipherFrom (key : List Char) (i : Nat) : List Nat → List Nat
  | [] => []
  | b :: r => (b ^^^ keyStream key i) :: cipherFrom key (i + 1) r

/-- Modelled from the spec: `_encryptData` — encrypts serialized
settings data with the key-derived stream. -/
def _encryptData (key : List Char) (data : List Nat) : List Nat :=
  cipherFrom key 0 data

/-- Modelled from the spec: `_decryptData` — decrypts with the same
key-derived stream (the transformation is an involution). -/
def _decryptData (key : List Char) (data : List Nat) : List Nat :=
  cipherFrom key 0 data

/-- Text encoded as a byte-per-character sequence of code points. -/
def strToBytes (s : List Char) : List Nat := s.map Char.toNat

/-- Decode a byte sequence back to text. -/
def bytesToStr (b : List Nat) : List Char := b.map Char.ofNat

/-- JavaScript truthiness of an `isKeyPath` result: `undefined`
(modelled as `none`) is falsy. -/
def truthy (o : Option Bool) : Bool := o.getD false

mutual

/-- Embeds `isKeyPath` of `lib/settings.js`: a string is a key path; an
array is checked element by element in a loop that returns `false` at
the first invalid element and `true` at the last element; any other
value returns `false`. For an empty array the loop body never runs and
the function returns `undefined`, modelled as `none`. -/
def isKeyPath : Json → Option Bool
  | .str _ => some true
  | .arr xs => isKeyPathLoop xs
  | _ => some false

/-- The element loop of `isKeyPath`. -/
def isKeyPathLoop : JsonList → Option Bool
  | .nil => none
  | .cons x rest =>
      if truthy (isKeyPath x) = false then some false
      else
        match rest with
        | .nil => some true
        | .cons y t => isKeyPathLoop (.cons y t)

end

/-- Join string segments with a dot, as `Array.prototype.join('.')`. -/
def joinDot : List (List Char) → List Char
  | [] => []
  | [s] => s
  | s :: r :: t => s ++ '.' :: joinDot (r :: t)

/-- String coercion applied by `Array.prototype.join` to each element.
Under a valid key path every joined element is already a string, so
only the string case is exercised by the library's flows; the numeric
case mirrors decimal coercion, and remaining cases are unreachable
placeholders. -/
def coerceStr : Json → List Char
  | .str s => s
  | .num n => intToChars n
  | _ => []

mutual

/-- Embeds `flattenKeyPath` of `lib/settings.js`: an array is flattened
by recursively flattening each element and joining the results with a
dot; any non-array value is returned unchanged. -/
def flattenKeyPath : Json → Json
  | .arr xs => .str (joinDot (flattenItems xs))
  | .null => .null
  | .bool b => .bool b
  | .num n => .num n
  | .str s => .str s
  | .obj kvs => .obj kvs

/-- Per-element flattening inside `flattenKeyPath`'s `map`/`join`. -/
def flattenItems : JsonList → List (List Char)
  | .nil => []
  | .cons x t => coerceStr (flattenKeyPath x) :: flattenItems t

end

/-- Modelled from the spec: the path splitter of the external
`key-path-helpers` package. Splits the canonical path string on
unescaped dots; a backslash immediately preceding a dot marks that dot
as literal (the escape is removed and the dot kept in the segment);
any other character is copied into the current segment. -/
def splitSegsAcc (acc : List Char) : List Char → List (List Char)
  | [] => [acc]
  | '\\' :: '.' :: r => splitSegsAcc (acc ++ ['.']) r
  | '.' :: r => acc :: splitSegsAcc [] r
  | c :: r => splitSegsAcc (acc ++ [c]) r

/-- Split a canonical dotted key path into unescaped segments. -/
def splitKeyPath (p : List Char) : List (List Char) := splitSegsAcc [] p

/-- First-match association lookup: a JavaScript property read (keys
of a JavaScript object are unique). -/
def lookupKey : JsonObj → List Char → Option Json
  | .nil, _ => none
  | .cons k v t, key => if k = key then some v else lookupKey t key

/-- JavaScript property assignment: update an existing key in place,
else append the new key, preserving insertion order. -/
def setKey : JsonObj → List Char → Json → JsonObj
  | .nil, key, v => .cons key v .nil
  | .cons k v0 t, key, v =>
      if k = key then .cons k v t else .cons k v0 (setKey t key v)

/-- JavaScript `delete` of a property. -/
def removeKey : JsonObj → List Char → JsonObj
  | .nil, _ => .nil
  | .cons k v t, key => if k = key then t else .cons k v (removeKey t key)

/-- The fields of a mapping; any non-mapping value contributes none. -/
def objFields : Json → JsonObj
  | .obj kvs => kvs
  | _ => .nil

/-- Modelled from the spec: the accessor `get` walk of
`key-path-helpers` — walk the root segment by segment; if any
intermediate segment does not resolve to a traversable mapping the
result is `undefined` (`none`), never an error. -/
def getAtSegs : Json → List (List Char) → Option Json
  | v, [] => some v
  | .obj kvs, k :: rest =>
      match lookupKey kvs k with
      | some c => getAtSegs c rest
      | none => none
  | _, _ :: _ => none

/-- Modelled from the spec: the accessor `set` walk of
`key-path-helpers` — walk all but the last segment, creating an empty
mapping at any missing (or non-mapping) intermediate segment, then
assign the value at the final segment; the caller's subsequent reads
observe the update. -/
def setAtSegs : Json → List (List Char) → Json → Json
  | _, [], v => v
  | root, k :: rest, v =>
      let kvs := objFields root
      let child := (lookupKey kvs k).getD (.obj .nil)
      .obj (setKey kvs k (setAtSegs child rest v))

/-- Modelled from the spec: the accessor `delete` walk of
`key-path-helpers` — walk to the parent of the final segment; if the
parent exists and is a mapping, remove the final key; if any
intermediate segment is missing the operation is a silent no-op. -/
def delAtSegs : Json → List (List Char) → Json
  | root, [] => root
  | root, [k] =>
      match root with
      | .obj kvs => .obj (removeKey kvs k)
      | other => other
  | root, k :: rest =>
      match root with
      | .obj kvs =>
          match lookupKey kvs k with
          | some child => .obj (setKey kvs k (delAtSegs child rest))
          | none => root
      | other => other

/-- The external accessor's `getValueAtKeyPath`. -/
def getValueAtKeyPath (obj : Json) (p : List Char) : Option Json :=
  getAtSegs obj (splitKeyPath p)

/-- The external accessor's `hasKeyPath`: true iff the full path
resolves to a defined value. -/
def hasKeyPath (obj : Json) (p : List Char) : Bool :=
  (getValueAtKeyPath obj p).isSome

/-- The external accessor's `setValueAtKeyPath`. -/
def setValueAtKeyPath (obj : Json) (p : List Char) (v : Json) : Json :=
  setAtSegs obj (splitKeyPath p) v

/-- The external accessor's `deleteValueAtKeyPath`. -/
def deleteValueAtKeyPath (obj : Json) (p : List Char) : Json :=
  delAtSegs obj (splitKeyPath p)

/-- Outcome of a `stat` call on a path: success, a file-not-found
error (`ENOENT`), or any other failure. -/
inductive StatR where
  | ok : StatR
  | enoent : StatR
  | fail : StatR
  deriving DecidableEq

/-- Errors surfaced by store operations: the invalid-key-path
`TypeError` thrown by `has`/`delete`, a propagated stat/read failure,
and a codec failure (`JSON.parse` or decryption error). -/
inductive SErr where
  | invalidKeyPath : SErr
  | statFail : SErr
  | parseFail : SErr
  deriving DecidableEq

/-- Store configuration held per instance. The `dir`, `fileName` and
`electron` options only resolve the target path; the file-system state
of the model holds that one target file directly, so they are not
represented. The `encryptionAlgorithm` name selects a host cipher and
is likewise outside the model. -/
structure Config where
  atomicSave : Bool
  prettify : Bool
  numSpaces : Nat
  encryptionKey : Option (List Char)
  deriving DecidableEq

/-- Modelled from the spec: the defaults of `lib/defaults.js`, which is
not among the sources — atomic writes on, prettify off, two-space
indent, no encryption. -/
def defaults : Config :=
  { atomicSave := true, prettify := false, numSpaces := 2, encryptionKey := none }

/-- File-system state: stat outcomes for the settings directory and
settings file, and the file's byte contents (meaningful when the file
stat succeeds). -/
structure FS where
  dirStat : StatR
  fileStat : StatR
  data : List Nat
  deriving DecidableEq

/-- JavaScript truthiness of the nullable, already-flattened key-path
argument of the private accessors: `null` and the empty string are
falsy. -/
def truthyKeyPath : Option (List Char) → Bool
  | none => false
  | some p => !p.isEmpty

namespace ElectronSettings

/-- Embeds `_prepareSettingsData`: stringify with `numSpaces` when
prettifying (else compact), then encrypt when a key is configured. -/
def _prepareSettingsData (cfg : Config) (obj : Json) : List Nat :=
  let numSpaces := if cfg.prettify then cfg.numSpaces else 0
  let data := renderJson numSpaces 0 obj
  match cfg.encryptionKey with
  | some key => _encryptData key (strToBytes data)
  | none => strToBytes data

/-- Embeds `_reconstructSettingsData`: decrypt when a key is
configured, then parse; a parse failure is the thrown codec error. -/
def _reconstructSettingsData (cfg : Config) (data : List Nat) : Except SErr Json :=
  let decryptedData :=
    match cfg.encryptionKey with
    | some key => _decryptData key data
    | none => data
  match parseJson (bytesToStr decryptedData) with
  | some v => Except.ok v
  | none => Except.error SErr.parseFail

/-- Embeds `_ensureSettingsDir` (asynchronous variant): stat the
directory; on `ENOENT` create it; any other stat failure propagates. -/
def _ensureSettingsDir (_cfg : Config) (fs : FS) : Except SErr Unit × FS :=
  match fs.dirStat with
  | .ok => (Except.ok Unit.unit, fs)
  | .enoent => (Except.ok Unit.unit, { fs with dirStat := StatR.ok })
  | .fail => (Except.error SErr.statFail, fs)

/-- Embeds `_ensureSettingsDirSync`. -/
def _ensureSettingsDirSync (_cfg : Config) (fs : FS) : Except SErr Unit × FS :=
  match fs.dirStat with
  | .ok => (Except.ok Unit.unit, fs)
  | .enoent => (Except.ok Unit.unit, { fs with dirStat := StatR.ok })
  | .fail => (Except.error SErr.statFail, fs)

/-- Embeds `_writeSettingsFile`: ensure the directory, then write the
bytes (atomically when `atomicSave`; atomic and plain writes have the
same final contents in the model, which does not represent crashes). -/
def _writeSettingsFile (cfg : Config) (data : List Nat) (fs : FS) :
    Except SErr Unit × FS :=
  match _ensureSettingsDir cfg fs with
  | (Except.error e, fs2) => (Except.error e, fs2)
  | (Except.ok _, fs2) =>
      if cfg.atomicSave then
        (Except.ok Unit.unit, { fs2 with fileStat := StatR.ok, data := data })
      else
        (Except.ok Unit.unit, { fs2 with fileStat := StatR.ok, data := data })

/-- Embeds `_writeSettingsFileSync`. -/
def _writeSettingsFileSync (cfg : Config) (data : List Nat) (fs : FS) :
    Except SErr Unit × FS :=
  match _ensureSettingsDirSync cfg fs with
  | (Except.error e, fs2) => (Except.error e, fs2)
  | (Except.ok _, fs2) =>
      if cfg.atomicSave then
        (Except.ok Unit.unit, { fs2 with fileStat := StatR.ok, data := data })
      else
        (Except.ok Unit.unit, { fs2 with fileStat := StatR.ok, data := data })

/-- Embeds `_saveSettings`: prepare the data (errors delivered to the
callback; preparation is total in the model), then write. -/
def _saveSettings (cfg : Config) (obj : Json) (fs : FS) : Except SErr Unit × FS :=
  let data := _prepareSettingsData cfg obj
  _writeSettingsFile cfg data fs

/-- Embeds `_saveSettingsSync`. -/
def _saveSettingsSync (cfg : Config) (obj : Json) (fs : FS) : Except SErr Unit × FS :=
  let data := _prepareSettingsData cfg obj
  _writeSettingsFileSync cfg data fs

/-- Embeds `_ensureSettingsFile`: stat the file; on `ENOENT` save an
empty object; any other stat failure propagates. -/
def _ensureSettingsFile (cfg : Config) (fs : FS) : Except SErr Unit × FS :=
  match fs.fileStat with
  | .ok => (Except.ok Unit.unit, fs)
  | .enoent => _saveSettings cfg (Json.obj JsonObj.nil) fs
  | .fail => (Except.error SErr.statFail, fs)

/-- Embeds `_ensureSettingsFileSync`. -/
def _ensureSettingsFileSync (cfg : Config) (fs : FS) : Except SErr Unit × FS :=
  match fs.fileStat with
  | .ok => (Except.ok Unit.unit, fs)
  | .enoent => _saveSettingsSync cfg (Json.obj JsonObj.nil) fs
  | .fail => (Except.error SErr.statFail, fs)

/-- Embeds `_readSettingsFile`: read the file's bytes and reconstruct
the document, delivering a reconstruction error to the callback. -/
def _readSettingsFile (cfg : Config) (fs : FS) : Except SErr Json × FS :=
  match fs.fileStat with
  | .ok => (_reconstructSettingsData cfg fs.data, fs)
  | _ => (Except.error SErr.statFail, fs)

/-- Embeds `_readSettingsFileSync`. -/
def _readSettingsFileSync (cfg : Config) (fs : FS) : Except SErr Json × FS :=
  match fs.fileStat with
  | .ok => (_reconstructSettingsData cfg fs.data, fs)
  | _ => (Except.error SErr.statFail, fs)

/-- Embeds `_loadSettings`: ensure the file exists, then read it. -/
def _loadSettings (cfg : Config) (fs : FS) : Except SErr Json × FS :=
  match _ensureSettingsFile cfg fs with
  | (Except.error e, fs2) => (Except.error e, fs2)
  | (Except.ok _, fs2) => _readSettingsFile cfg fs2

/-- Embeds `_loadSettingsSync`. -/
def _loadSettingsSync (cfg : Config) (fs : FS) : Except SErr Json × FS :=
  match _ensureSettingsFileSync cfg fs with
  | (Except.error e, fs2) => (Except.error e, fs2)
  | (Except.ok _, fs2) => _readSettingsFileSync cfg fs2

/-- Embeds `_getValueAtKeyPath`: load, then read at the key path, or
produce the whole document when the key path is not truthy. -/
def _getValueAtKeyPath (cfg : Config) (keyPath : Option (List Char)) (fs : FS) :
    Except SErr (Option Json) × FS :=
  match _loadSettings cfg fs with
  | (Except.error e, fs2) => (Except.error e, fs2)
  | (Except.ok obj, fs2) =>
      if truthyKeyPath keyPath then
        (Except.ok (getValueAtKeyPath obj (keyPath.getD [])), fs2)
      else
        (Except.ok (some obj), fs2)

/-- Embeds `_getValueAtKeyPathSync`. -/
def _getValueAtKeyPathSync (cfg : Config) (keyPath : Option (List Char)) (fs : FS) :
    Except SErr (Option Json) × FS :=
  match _loadSettingsSync cfg fs with
  | (Except.error e, fs2) => (Except.error e, fs2)
  | (Except.ok obj, fs2) =>
      if truthyKeyPath keyPath then
        (Except.ok (getValueAtKeyPath obj (keyPath.getD [])), fs2)
      else
        (Except.ok (some obj), fs2)

/-- Embeds `_hasKeyPath`: load, then test the key path. -/
def _hasKeyPath (cfg : Config) (keyPath : List Char) (fs : FS) :
    Except SErr Bool × FS :=
  match _loadSettings cfg fs with
  | (Except.error e, fs2) => (Except.error e, fs2)
  | (Except.ok obj, fs2) => (Except.ok (hasKeyPath obj keyPath), fs2)

/-- Embeds `_hasKeyPathSync`. -/
def _hasKeyPathSync (cfg : Config) (keyPath : List Char) (fs : FS) :
    Except SErr Bool × FS :=
  match _loadSettingsSync cfg fs with
  | (Except.error e, fs2) => (Except.error e, fs2)
  | (Except.ok obj, fs2) => (Except.ok (hasKeyPath obj keyPath), fs2)

/-- Embeds `_setValueAtKeyPath`: with a truthy key path, load, set at
the path and save; otherwise save the value as the whole document. -/
def _setValueAtKeyPath (cfg : Config) (keyPath : Option (List Char)) (val : Json)
    (fs : FS) : Except SErr Unit × FS :=
  if truthyKeyPath keyPath then
    match _loadSettings cfg fs with
    | (Except.error e, fs2) => (Except.error e, fs2)
    | (Except.ok obj, fs2) =>
        _saveSettings cfg (setValueAtKeyPath obj (keyPath.getD []) val) fs2
  else
    _saveSettings cfg val fs

/-- Embeds `_setValueAtKeyPathSync`. -/
def _setValueAtKeyPathSync (cfg : Config) (keyPath : Option (List Char)) (val : Json)
    (fs : FS) : Except SErr Unit × FS :=
  if truthyKeyPath keyPath then
    match _loadSettingsSync cfg fs with
    | (Except.error e, fs2) => (Except.error e, fs2)
    | (Except.ok obj, fs2) =>
        _saveSettingsSync cfg (setValueAtKeyPath obj (keyPath.getD []) val) fs2
  else
    _saveSettingsSync cfg val fs

/-- Embeds `_deleteValueAtKeyPath`: load, delete at the path, save. -/
def _deleteValueAtKeyPath (cfg : Config) (keyPath : List Char) (fs : FS) :
    Except SErr Unit × FS :=
  match _loadSettings cfg fs with
  | (Except.error e, fs2) => (Except.error e, fs2)
  | (Except.ok obj, fs2) =>
      _saveSettings cfg (deleteValueAtKeyPath obj keyPath) fs2

/-- Embeds `_deleteValueAtKeyPathSync`. -/
def _deleteValueAtKeyPathSync (cfg : Config) (keyPath : List Char) (fs : FS) :
    Except SErr Unit × FS :=
  match _loadSettingsSync cfg fs with
  | (Except.error e, fs2) => (Except.error e, fs2)
  | (Except.ok obj, fs2) =>
      _saveSettingsSync cfg (deleteValueAtKeyPath obj keyPath) fs2

/-- Embeds the public `get`: when the first argument is a key path it
is flattened and passed on; otherwise `null` is prepended and the
whole document is produced. `none` models an absent argument. -/
def get (cfg : Config) (arg : Option Json) (fs : FS) :
    Except SErr (Option Json) × FS :=
  match arg with
  | some a =>
      if truthy (isKeyPath a) then
        _getValueAtKeyPath cfg (some (coerceStr (flattenKeyPath a))) fs
      else
        _getValueAtKeyPath cfg none fs
  | none => _getValueAtKeyPath cfg none fs

/-- Embeds the public `getSync`. -/
def getSync (cfg : Config) (arg : Option Json) (fs : FS) :
    Except SErr (Option Json) × FS :=
  match arg with
  | some a =>
      if truthy (isKeyPath a) then
        _getValueAtKeyPathSync cfg (some (coerceStr (flattenKeyPath a))) fs
      else
        _getValueAtKeyPathSync cfg none fs
  | none => _getValueAtKeyPathSync cfg none fs

/-- Embeds the public `has`: a non-key-path argument raises the
invalid-key-path `TypeError` synchronously. -/
def has (cfg : Config) (a : Json) (fs : FS) : Except SErr Bool × FS :=
  if truthy (isKeyPath a) then
    _hasKeyPath cfg (coerceStr (flattenKeyPath a)) fs
  else
    (Except.error SErr.invalidKeyPath, fs)

/-- Embeds the public `hasSync`. -/
def hasSync (cfg : Config) (a : Json) (fs : FS) : Except SErr Bool × FS :=
  if truthy (isKeyPath a) then
    _hasKeyPathSync cfg (coerceStr (flattenKeyPath a)) fs
  else
    (Except.error SErr.invalidKeyPath, fs)

/-- Embeds the public `set`: when the first argument is a key path it
is flattened; otherwise `null` is prepended, so the first argument
itself becomes the value saved as the whole document and the second
argument is ignored. -/
def set (cfg : Config) (a1 : Json) (a2 : Json) (fs : FS) : Except SErr Unit × FS :=
  if truthy (isKeyPath a1) then
    _setValueAtKeyPath cfg (some (coerceStr (flattenKeyPath a1))) a2 fs
  else
    _setValueAtKeyPath cfg none a1 fs

/-- Embeds the public `setSync`. -/
def setSync (cfg : Config) (a1 : Json) (a2 : Json) (fs : FS) : Except SErr Unit × FS :=
  if truthy (isKeyPath a1) then
    _setValueAtKeyPathSync cfg (some (coerceStr (flattenKeyPath a1))) a2 fs
  else
    _setValueAtKeyPathSync cfg none a1 fs

/-- Embeds the public `delete`: a non-key-path argument raises the
invalid-key-path `TypeError` synchronously. -/
def delete (cfg : Config) (a : Json) (fs : FS) : Except SErr Unit × FS :=
  if truthy (isKeyPath a) then
    _deleteValueAtKeyPath cfg (coerceStr (flattenKeyPath a)) fs
  else
    (Except.error SErr.invalidKeyPath, fs)

/-- Embeds the public `deleteSync`. -/
def deleteSync (cfg : Config) (a : Json) (fs : FS) : Except SErr Unit × FS :=
  if truthy (isKeyPath a) then
    _deleteValueAtKeyPathSync cfg (coerceStr (flattenKeyPath a)) fs
  else
    (Except.error SErr.invalidKeyPath, fs)

end ElectronSettings

/-- Digit characters have the expected code point. -/
theorem decDigitChar_toNat : ∀ n, n < 10 → (decDigitChar n).toNat = 48 + n := by
  decide

/-- Digit characters satisfy the digit test. -/
theorem isDigitCh_decDigitChar : ∀ n, n < 10 → isDigitCh (decDigitChar n) = true := by
  decide

/-- Reading back a hexadecimal digit recovers its value. -/
theorem parseHex_hexDigitChar : ∀ m, m < 16 → parseHex (hexDigitChar m) = some m := by
  decide

/-- Whitespace characters are not digits. -/
theorem isWsCh_not_digit (c : Char) (h : isWsCh c = true) : isDigitCh c = false := by
  simp only [isWsCh, decide_eq_true_eq] at h
  rcases h with h | h | h | h <;> subst h <;> decide

/-- A digit character is none of the JSON structural characters. -/
theorem isDigitCh_ne (c : Char) (h : isDigitCh c = true) :
    c ≠ lbrace ∧ c ≠ '[' ∧ c ≠ '"' ∧ c ≠ 'n' ∧ c ≠ 't' ∧ c ≠ 'f' ∧ c ≠ '-' ∧
      isWsCh c = false ∧ c ≠ ']' ∧ c ≠ ',' ∧ c ≠ rbrace ∧ c ≠ ':' := by
  refine ⟨?_, ?_, ?_, ?_, ?_, ?_, ?_, ?_, ?_, ?_, ?_, ?_⟩ <;>
    first
    | (intro heq; subst heq; revert h; decide)
    | (cases hw : isWsCh c
       · rfl
       · rw [isWsCh_not_digit c hw] at h; exact absurd h (by decide))

/-- A list all of whose characters are whitespace. -/
def wsOnly (t : List Char) : Prop := ∀ c ∈ t, isWsCh c = true

/-- A list that does not start with a digit (maximal digit runs stop). -/
def headNotDigit : List Char → Prop
  | [] => True
  | c :: _ => isDigitCh c = false

/-- Skipping whitespace passes over an all-whitespace prefix. -/
theorem skipWs_wsOnly_append (t u : List Char) (h : wsOnly t) :
    skipWs (t ++ u) = skipWs u := by
  induction t with
  | nil => rfl
  | cons c r ih =>
      have hc : isWsCh c = true := h c (by simp)
      have hr : wsOnly r := fun d hd => h d (by simp [hd])
      simp [skipWs, hc, ih hr]

/-- Skipping whitespace stops at a non-whitespace character. -/
theorem skipWs_cons_not_ws (c : Char) (u : List Char) (h : isWsCh c = false) :
    skipWs (c :: u) = c :: u := by
  simp [skipWs, h]

/-- The empty list is all-whitespace. -/
theorem wsOnly_nil : wsOnly [] := by intro c hc; cases hc

/-- An indentation run is all-whitespace. -/
theorem wsOnly_mkIndent (n : Nat) : wsOnly (mkIndent n) := by
  intro c hc
  have : c = ' ' := List.eq_of_mem_replicate hc
  subst this; decide

/-- The per-item prefix is all-whitespace. -/
theorem wsOnly_itemPre (gap ind : Nat) : wsOnly (itemPre gap ind) := by
  unfold itemPre
  split
  · exact wsOnly_nil
  · intro c hc
    rcases hc with _ | hc
    · decide
    · exact wsOnly_mkIndent ind c (by assumption)

/-- The closing-bracket prefix is all-whitespace. -/
theorem wsOnly_closeIndent (gap ind : Nat) : wsOnly (closeIndent gap ind) := by
  unfold closeIndent
  split
  · exact wsOnly_nil
  · intro c hc
    rcases hc with _ | hc
    · decide
    · exact wsOnly_mkIndent ind c (by assumption)

/-- A whitespace prefix followed by a non-digit keeps the head
non-digit. -/
theorem headNotDigit_wsOnly_cons (t : List Char) (c : Char) (r : List Char)
    (ht : wsOnly t) (hc : isDigitCh c = false) :
    headNotDigit (t ++ c :: r) := by
  cases t with
  | nil => exact hc
  | cons d u =>
      have : isWsCh d = true := ht d (by simp)
      exact isWsCh_not_digit d this

/-- Accumulating decimal value of a digit run. -/
def valAcc : List Char → Nat → Nat
  | [], acc => acc
  | c :: r, acc => valAcc r (acc * 10 + (c.toNat - 48))

/-- The accumulator fold splits over append. -/
theorem valAcc_append : ∀ (a b : List Char) (acc : Nat),
    valAcc (a ++ b) acc = valAcc b (valAcc a acc)
  | [], _, _ => rfl
  | c :: r, b, acc => valAcc_append r b (acc * 10 + (c.toNat - 48))

/-- `parseDigits` consumes exactly a maximal digit run and folds its
value onto the accumulator. -/
theorem parseDigits_spec (ds : List Char) (rest : List Char) :
    (∀ c ∈ ds, isDigitCh c = true) → headNotDigit rest →
    ∀ acc, parseDigits (ds ++ rest) acc = (valAcc ds acc, rest) := by
  induction ds with
  | nil =>
      intro _ hrest acc
      cases rest with
      | nil => rfl
      | cons c r => simp [parseDigits, valAcc, headNotDigit] at hrest ⊢; simp [hrest]
  | cons c r ih =>
      intro hds hrest acc
      have hc : isDigitCh c = true := hds c (by simp)
      have hr : ∀ d ∈ r, isDigitCh d = true := fun d hd => hds d (by simp [hd])
      simp [parseDigits, hc, valAcc, ih hr hrest]

/-- Shape of `natToDigitsF` under sufficient fuel: non-empty, all
digits, and folding recovers the number. -/
theorem natToDigitsF_spec : ∀ f n, n < f →
    natToDigitsF f n ≠ [] ∧ (∀ c ∈ natToDigitsF f n, isDigitCh c = true) ∧
      ∀ acc, valAcc (natToDigitsF f n) acc = acc * 10 ^ (natToDigitsF f n).length + n := by
  intro f
  induction f with
  | zero => intro n h; omega
  | succ f ih =>
      intro n hn
      by_cases h10 : n < 10
      · refine ⟨by simp [natToDigitsF, h10], ?_, ?_⟩
        · intro c hc
          simp [natToDigitsF, h10] at hc
          subst hc
          exact isDigitCh_decDigitChar n h10
        · intro acc
          simp [natToDigitsF, h10, valAcc, decDigitChar_toNat n h10]
          try omega
      · have hdiv : n / 10 < f := by
          have h1 : n / 10 < n := Nat.div_lt_self (by omega) (by omega)
          omega
        obtain ⟨hne, hdig, hval⟩ := ih (n / 10) hdiv
        have hlast : isDigitCh (decDigitChar (n % 10)) = true :=
          isDigitCh_decDigitChar _ (Nat.mod_lt n (by omega))
        refine ⟨by simp [natToDigitsF, h10], ?_, ?_⟩
        · intro c hc
          simp [natToDigitsF, h10] at hc
          rcases hc with hc | hc
          · exact hdig c hc
          · subst hc; exact hlast
        · intro acc
          have hstep : natToDigitsF (f + 1) n =
              natToDigitsF f (n / 10) ++ [decDigitChar (n % 10)] := by
            simp [natToDigitsF, h10]
          rw [hstep, valAcc_append, hval acc]
          simp only [valAcc, decDigitChar_toNat _ (Nat.mod_lt n (by omega)),
            List.length_append, List.length_cons, List.length_nil, pow_succ, pow_zero]
          rw [← mul_assoc]
          generalize acc * 10 ^ (natToDigitsF f (n / 10)).length = X
          omega

/-- `natToDigits` is non-empty, all digits, and reads back to `n`. -/
theorem natToDigits_spec (n : Nat) :
    natToDigits n ≠ [] ∧ (∀ c ∈ natToDigits n, isDigitCh c = true) ∧
      valAcc (natToDigits n) 0 = n := by
  obtain ⟨h1, h2, h3⟩ := natToDigitsF_spec (n + 1) n (by omega)
  exact ⟨h1, h2, by simpa using h3 0⟩

/-- Every character escape is non-empty. -/
theorem escapeChar_length_pos (c : Char) : 1 ≤ (escapeChar c).length := by
  unfold escapeChar
  repeat' split
  all_goals simp

/-- Parsing a quoted string body undoes escaping: with sufficient fuel,
reading the escaped characters followed by the closing quote yields the
original string and leaves the rest untouched. -/
theorem parseStrBody_escapeStr : ∀ (s : List Char) (fu : Nat) (rest : List Char),
    (escapeStr s).length < fu →
    parseStrBody fu (escapeStr s ++ '"' :: rest) = some (s, rest) := by
  intro s
  induction s with
  | nil =>
      intro fu rest h
      cases fu with
      | zero => omega
      | succ fu => simp [escapeStr, parseStrBody]
  | cons c t ih =>
      intro fu rest h
      have hc1 : 1 ≤ (escapeChar c).length := escapeChar_length_pos c
      have hlen : (escapeChar c).length + (escapeStr t).length < fu := by
        simpa [escapeStr] using h
      cases fu with
      | zero => omega
      | succ fu =>
      have hf : (escapeStr t).length < fu := by omega
      show parseStrBody (fu + 1) ((escapeChar c ++ escapeStr t) ++ '"' :: rest) = _
      rw [List.append_assoc]
      by_cases h1 : c = '"'
      · subst h1; simp +decide [escapeChar, parseStrBody, escCode, ih _ _ hf]
      by_cases h2 : c = '\\'
      · subst h2; simp +decide [escapeChar, parseStrBody, escCode, ih _ _ hf]
      by_cases h3 : c = Char.ofNat 8
      · subst h3; simp +decide [escapeChar, parseStrBody, escCode, ih _ _ hf]
      by_cases h4 : c = Char.ofNat 12
      · subst h4; simp +decide [escapeChar, parseStrBody, escCode, ih _ _ hf]
      by_cases h5 : c = '\n'
      · subst h5; simp +decide [escapeChar, parseStrBody, escCode, ih _ _ hf]
      by_cases h6 : c = '\r'
      · subst h6; simp +decide [escapeChar, parseStrBody, escCode, ih _ _ hf]
      by_cases h7 : c = '\t'
      · subst h7; simp +decide [escapeChar, parseStrBody, escCode, ih _ _ hf]
      by_cases h8 : c.toNat < 32
      · have hdiv : c.toNat / 16 < 16 := by omega
        have hmod : c.toNat % 16 < 16 := by omega
        simp only [escapeChar, h1, h2, h3, h4, h5, h6, h7, h8, if_false, if_true,
          if_neg, if_pos, List.cons_append, List.nil_append]
        have hp0 : parseHex '0' = some 0 := by decide
        simp +decide [parseStrBody, hp0, parseHex_hexDigitChar _ hdiv,
          parseHex_hexDigitChar _ hmod, ih _ _ hf]
        rw [show 16 * (c.toNat / 16) + c.toNat % 16 = c.toNat by omega,
          Char.ofNat_toNat]
      · have h9 : 32 ≤ c.toNat := by omega
        simp only [escapeChar, h1, h2, h3, h4, h5, h6, h7, h8, if_false, if_neg,
          List.cons_append, List.nil_append]
        simp [parseStrBody, h1, h2, h9, ih _ _ hf]

/-- Token-level string parsing undoes escaping. -/
theorem parseStrTok_escapeStr (s rest : List Char) :
    parseStrTok (escapeStr s ++ '"' :: rest) = some (s, rest) :=
  parseStrBody_escapeStr s _ rest
    (by simp only [List.length_append, List.length_cons]; omega)

mutual

/-- Parser fuel sufficient for a value: one unit per `parseVal` step. -/
def fuelFor : Json → Nat
  | .null => 1
  | .bool _ => 1
  | .num _ => 1
  | .str _ => 1
  | .arr xs => 1 + fuelForL xs
  | .obj kvs => 1 + fuelForM kvs

/-- Parser fuel sufficient for an array-item list. -/
def fuelForL : JsonList → Nat
  | .nil => 0
  | .cons h t => 1 + fuelFor h + fuelForL t

/-- Parser fuel sufficient for an object-member list. -/
def fuelForM : JsonObj → Nat
  | .nil => 0
  | .cons _ v t => 1 + fuelFor v + fuelForM t

end

/-- Every value needs at least one unit of fuel. -/
theorem fuelFor_pos (v : Json) : 1 ≤ fuelFor v := by
  cases v <;> simp [fuelFor]

/-- Skipping whitespace through an all-whitespace prefix stops at a
non-whitespace character. -/
theorem skipWs_through (ws : List Char) (hws : wsOnly ws) (c : Char) (cs : List Char)
    (hc : isWsCh c = false) : skipWs (ws ++ c :: cs) = c :: cs := by
  rw [skipWs_wsOnly_append _ _ hws, skipWs_cons_not_ws _ _ hc]

/-- An integer renders to a non-empty character list. -/
theorem intToChars_ne_nil (n : Int) : intToChars n ≠ [] := by
  unfold intToChars
  split
  · simp
  · exact (natToDigits_spec n.toNat).1

/-- Every rendered value starts with a character that is neither
whitespace nor a closing bracket. -/
theorem renderJson_head (gap ind : Nat) (v : Json) :
    ∃ c cs, renderJson gap ind v = c :: cs ∧ isWsCh c = false ∧ c ≠ ']' := by
  cases v with
  | null => exact ⟨'n', _, rfl, by decide, by decide⟩
  | bool b =>
      cases b
      · exact ⟨'f', _, rfl, by decide, by decide⟩
      · exact ⟨'t', _, rfl, by decide, by decide⟩
  | num n =>
      show ∃ c cs, intToChars n = c :: cs ∧ _
      unfold intToChars
      split
      · exact ⟨'-', _, rfl, by decide, by decide⟩
      · obtain ⟨hne, hdig, _⟩ := natToDigits_spec n.toNat
        cases hd : natToDigits n.toNat with
        | nil => exact absurd hd hne
        | cons d ds =>
            have hdd : isDigitCh d = true := hdig d (by simp [hd])
            obtain ⟨-, -, -, -, -, -, -, hws, hbr, -⟩ := isDigitCh_ne d hdd
            exact ⟨d, ds, rfl, hws, hbr⟩
  | str s => exact ⟨'"', _, rfl, by decide, by decide⟩
  | arr xs =>
      cases xs with
      | nil => exact ⟨'[', _, rfl, by decide, by decide⟩
      | cons h t => exact ⟨'[', _, rfl, by decide, by decide⟩
  | obj kvs =>
      cases kvs with
      | nil => exact ⟨lbrace, _, rfl, by decide, by decide⟩
      | cons k v t => exact ⟨lbrace, _, rfl, by decide, by decide⟩

/-- A non-empty item list renders as the item prefix, the head's
rendering, and a remainder. -/
theorem renderItems_cons_shape (gap ind : Nat) (h : Json) (t : JsonList)
    (hc : Char) (hcs : List Char) (hh : renderJson gap ind h = hc :: hcs)
    (w : List Char) :
    ∃ z, renderItems gap ind (.cons h t) ++ w = itemPre gap ind ++ hc :: z := by
  cases t with
  | nil => exact ⟨hcs ++ w, by simp [renderItems, hh]⟩
  | cons h2 t2 => exact ⟨hcs ++ ',' :: renderItems gap ind (.cons h2 t2) ++ w,
      by simp [renderItems, hh]⟩

/-- A non-empty member list renders as the item prefix, an opening
quote, and a remainder. -/
theorem renderMembers_cons_shape (gap ind : Nat) (k : List Char) (v : Json)
    (t : JsonObj) (w : List Char) :
    ∃ z, renderMembers gap ind (.cons k v t) ++ w = itemPre gap ind ++ '"' :: z := by
  cases t with
  | nil => exact ⟨escapeStr k ++ ['"'] ++ colonSep gap ++ renderJson gap ind v ++ w,
      by simp [renderMembers, quoteStr]⟩
  | cons k2 v2 t2 =>
      exact ⟨escapeStr k ++ ['"'] ++ colonSep gap ++ renderJson gap ind v ++
        ',' :: renderMembers gap ind (.cons k2 v2 t2) ++ w,
        by simp [renderMembers, quoteStr]⟩

/-- The key/value separator starts with a colon followed by
whitespace. -/
theorem colonSep_shape (gap : Nat) :
    ∃ z, colonSep gap = ':' :: z ∧ wsOnly z := by
  unfold colonSep
  split
  · exact ⟨[], rfl, wsOnly_nil⟩
  · refine ⟨[' '], rfl, ?_⟩
    intro c hc
    simp at hc
    subst hc
    decide

mutual

/-- The parser inverts the serializer: with sufficient fuel, parsing a
rendered value after any whitespace prefix yields the value and leaves
a non-digit-headed remainder untouched. -/
theorem parseVal_render : ∀ (v : Json) (gap ind f : Nat) (ws rest : List Char),
    fuelFor v ≤ f → wsOnly ws → headNotDigit rest →
    parseVal f (ws ++ renderJson gap ind v ++ rest) = some (v, rest)
  | .null, gap, ind, f, ws, rest => by
      intro hfuel hws hrest
      cases f with
      | zero => simp [fuelFor] at hfuel
      | succ f =>
          have hskip : skipWs (ws ++ renderJson gap ind .null ++ rest) =
              'n' :: ('u' :: 'l' :: 'l' :: rest) := by
            rw [show ws ++ renderJson gap ind .null ++ rest =
              ws ++ 'n' :: ('u' :: 'l' :: 'l' :: rest) by simp [renderJson]]
            exact skipWs_through ws hws _ _ (by decide)
          simp only [parseVal]
          rw [hskip]
          simp +decide
  | .bool true, gap, ind, f, ws, rest => by
      intro hfuel hws hrest
      cases f with
      | zero => simp [fuelFor] at hfuel
      | succ f =>
          have hskip : skipWs (ws ++ renderJson gap ind (.bool true) ++ rest) =
              't' :: ('r' :: 'u' :: 'e' :: rest) := by
            rw [show ws ++ renderJson gap ind (.bool true) ++ rest =
              ws ++ 't' :: ('r' :: 'u' :: 'e' :: rest) by simp [renderJson]]
            exact skipWs_through ws hws _ _ (by decide)
          simp only [parseVal]
          rw [hskip]
          simp +decide
  | .bool false, gap, ind, f, ws, rest => by
      intro hfuel hws hrest
      cases f with
      | zero => simp [fuelFor] at hfuel
      | succ f =>
          have hskip : skipWs (ws ++ renderJson gap ind (.bool false) ++ rest) =
              'f' :: ('a' :: 'l' :: 's' :: 'e' :: rest) := by
            rw [show ws ++ renderJson gap ind (.bool false) ++ rest =
              ws ++ 'f' :: ('a' :: 'l' :: 's' :: 'e' :: rest) by simp [renderJson]]
            exact skipWs_through ws hws _ _ (by decide)
          simp only [parseVal]
          rw [hskip]
          simp +decide
  | .num n, gap, ind, f, ws, rest => by
      intro hfuel hws hrest
      cases f with
      | zero => simp [fuelFor] at hfuel
      | succ f =>
          by_cases hneg : n < 0
          · obtain ⟨hne, hdig, hval⟩ := natToDigits_spec n.natAbs
            cases hd : natToDigits n.natAbs with
            | nil => exact absurd hd hne
            | cons d ds =>
                have hdd : isDigitCh d = true := hdig d (by simp [hd])
                have hskip : skipWs (ws ++ renderJson gap ind (.num n) ++ rest) =
                    '-' :: (d :: (ds ++ rest)) := by
                  rw [show ws ++ renderJson gap ind (.num n) ++ rest =
                    ws ++ '-' :: (d :: (ds ++ rest)) by
                      simp [renderJson, intToChars, hneg, hd]]
                  exact skipWs_through ws hws _ _ (by decide)
                have hpd : parseDigits (d :: (ds ++ rest)) 0 =
                    (valAcc (d :: ds) 0, rest) := by
                  have := parseDigits_spec (d :: ds) rest
                    (fun c hc => hdig c (hd ▸ hc)) hrest 0
                  simpa using this
                have hv : valAcc (d :: ds) 0 = n.natAbs := by
                  rw [← hd]
                  exact hval
                simp only [parseVal]
                rw [hskip]
                simp +decide [hdd, hpd, hv]
                first
                | omega
                | rw [abs_of_neg hneg, neg_neg]
          · obtain ⟨hne, hdig, hval⟩ := natToDigits_spec n.toNat
            cases hd : natToDigits n.toNat with
            | nil => exact absurd hd hne
            | cons d ds =>
                have hdd : isDigitCh d = true := hdig d (by simp [hd])
                obtain ⟨ha1, ha2, ha3, ha4, ha5, ha6, ha7, ha8, -, -, -, -⟩ :=
                  isDigitCh_ne d hdd
                have hskip : skipWs (ws ++ renderJson gap ind (.num n) ++ rest) =
                    d :: (ds ++ rest) := by
                  rw [show ws ++ renderJson gap ind (.num n) ++ rest =
                    ws ++ d :: (ds ++ rest) by
                      simp [renderJson, intToChars, hneg, hd]]
                  exact skipWs_through ws hws _ _ ha8
                have hpd : parseDigits (d :: (ds ++ rest)) 0 =
                    (valAcc (d :: ds) 0, rest) := by
                  have := parseDigits_spec (d :: ds) rest
                    (fun c hc => hdig c (hd ▸ hc)) hrest 0
                  simpa using this
                have hv : valAcc (d :: ds) 0 = n.toNat := by
                  rw [← hd]
                  exact hval
                simp only [parseVal]
                rw [hskip]
                simp [ha1, ha2, ha3, ha4, ha5, ha6, ha7, hdd, hpd, hv]
                omega
  | .str s, gap, ind, f, ws, rest => by
      intro hfuel hws hrest
      cases f with
      | zero => simp [fuelFor] at hfuel
      | succ f =>
          have hskip : skipWs (ws ++ renderJson gap ind (.str s) ++ rest) =
              '"' :: (escapeStr s ++ '"' :: rest) := by
            rw [show ws ++ renderJson gap ind (.str s) ++ rest =
              ws ++ '"' :: (escapeStr s ++ '"' :: rest) by simp [renderJson, quoteStr]]
            exact skipWs_through ws hws _ _ (by decide)
          have hsb : parseStrTok (escapeStr s ++ '"' :: rest) = some (s, rest) :=
            parseStrTok_escapeStr s rest
          simp only [parseVal]
          rw [hskip]
          simp +decide [hsb]
  | .arr .nil, gap, ind, f, ws, rest => by
      intro hfuel hws hrest
      cases f with
      | zero => simp [fuelFor] at hfuel
      | succ f =>
          have hskip : skipWs (ws ++ renderJson gap ind (.arr .nil) ++ rest) =
              '[' :: (']' :: rest) := by
            rw [show ws ++ renderJson gap ind (.arr .nil) ++ rest =
              ws ++ '[' :: (']' :: rest) by simp [renderJson]]
            exact skipWs_through ws hws _ _ (by decide)
          simp only [parseVal]
          rw [hskip]
          simp +decide [skipWs]
  | .arr (.cons h t), gap, ind, f, ws, rest => by
      intro hfuel hws hrest
      cases f with
      | zero => simp [fuelFor] at hfuel
      | succ f =>
          obtain ⟨hc, hcs, hh, hcws, hcne⟩ := renderJson_head gap (ind + gap) h
          obtain ⟨z, hz⟩ := renderItems_cons_shape gap (ind + gap) h t hc hcs hh
            (closeIndent gap ind ++ ']' :: rest)
          have hskip : skipWs (ws ++ renderJson gap ind (.arr (.cons h t)) ++ rest) =
              '[' :: (renderItems gap (ind + gap) (.cons h t) ++
                (closeIndent gap ind ++ ']' :: rest)) := by
            rw [show ws ++ renderJson gap ind (.arr (.cons h t)) ++ rest =
              ws ++ '[' :: (renderItems gap (ind + gap) (.cons h t) ++
                (closeIndent gap ind ++ ']' :: rest)) by simp [renderJson]]
            exact skipWs_through ws hws _ _ (by decide)
          have hskipr : skipWs (renderItems gap (ind + gap) (.cons h t) ++
              (closeIndent gap ind ++ ']' :: rest)) = hc :: z := by
            rw [hz]
            exact skipWs_through _ (wsOnly_itemPre _ _) _ _ hcws
          have hfl : fuelForL (.cons h t) ≤ f := by
            simp [fuelFor, fuelForL] at hfuel ⊢
            omega
          have hpe := parseElems_render (.cons h t) gap (ind + gap) f
            (closeIndent gap ind) rest hfl (by simp) (wsOnly_closeIndent _ _)
          simp only [List.append_assoc] at hpe
          simp only [parseVal]
          rw [hskip]
          simp +decide only [if_pos, if_neg, if_true, if_false]
          rw [hskipr]
          split
          · next x r2 heq =>
              simp only [List.cons.injEq] at heq
              exact absurd heq.1 hcne
          · next x hne2 =>
              rw [hpe]
  | .obj .nil, gap, ind, f, ws, rest => by
      intro hfuel hws hrest
      cases f with
      | zero => simp [fuelFor] at hfuel
      | succ f =>
          have hskip : skipWs (ws ++ renderJson gap ind (.obj .nil) ++ rest) =
              lbrace :: (rbrace :: rest) := by
            rw [show ws ++ renderJson gap ind (.obj .nil) ++ rest =
              ws ++ lbrace :: (rbrace :: rest) by simp [renderJson]]
            exact skipWs_through ws hws _ _ (by decide)
          simp only [parseVal]
          rw [hskip]
          simp +decide [skipWs]
  | .obj (.cons k v t), gap, ind, f, ws, rest => by
      intro hfuel hws hrest
      cases f with
      | zero => simp [fuelFor] at hfuel
      | succ f =>
          obtain ⟨z, hz⟩ := renderMembers_cons_shape gap (ind + gap) k v t
            (closeIndent gap ind ++ rbrace :: rest)
          have hskip : skipWs (ws ++ renderJson gap ind (.obj (.cons k v t)) ++ rest) =
              lbrace :: (renderMembers gap (ind + gap) (.cons k v t) ++
                (closeIndent gap ind ++ rbrace :: rest)) := by
            rw [show ws ++ renderJson gap ind (.obj (.cons k v t)) ++ rest =
              ws ++ lbrace :: (renderMembers gap (ind + gap) (.cons k v t) ++
                (closeIndent gap ind ++ rbrace :: rest)) by simp [renderJson]]
            exact skipWs_through ws hws _ _ (by decide)
          have hskipr : skipWs (renderMembers gap (ind + gap) (.cons k v t) ++
              (closeIndent gap ind ++ rbrace :: rest)) = '"' :: z := by
            rw [hz]
            exact skipWs_through _ (wsOnly_itemPre _ _) _ _ (by decide)
          have hfm : fuelForM (.cons k v t) ≤ f := by
            simp [fuelFor, fuelForM] at hfuel ⊢
            omega
          have hpm := parseMembers_render (.cons k v t) gap (ind + gap) f
            (closeIndent gap ind) rest hfm (by simp) (wsOnly_closeIndent _ _)
          simp only [List.append_assoc] at hpm
          simp only [parseVal]
          rw [hskip]
          simp +decide only [if_pos, if_neg, if_true, if_false]
          rw [hskipr]
          simp +decide [hpm]

/-- Parsing rendered array items followed by whitespace and the closing
bracket yields the item list. -/
theorem parseElems_render : ∀ (xs : JsonList) (gap ind f : Nat) (tail rest : List Char),
    fuelForL xs ≤ f → xs ≠ JsonList.nil → wsOnly tail →
    parseElems f (renderItems gap ind xs ++ tail ++ ']' :: rest) = some (xs, rest)
  | .nil, _, _, _, _, _ => by
      intro _ hne _
      exact absurd rfl hne
  | .cons h t, gap, ind, f, tail, rest => by
      intro hfuel _ htail
      cases f with
      | zero => simp [fuelForL] at hfuel
      | succ f =>
          have hfh : fuelFor h ≤ f := by
            simp [fuelForL] at hfuel
            omega
          cases t with
          | nil =>
              have hpv := parseVal_render h gap ind f (itemPre gap ind)
                (tail ++ ']' :: rest) hfh (wsOnly_itemPre _ _)
                (headNotDigit_wsOnly_cons tail ']' rest htail (by decide))
              have hsk : skipWs (tail ++ ']' :: rest) = ']' :: rest :=
                skipWs_through tail htail ']' rest (by decide)
              simp only [List.append_assoc] at hpv
              simp only [renderItems, List.append_assoc]
              simp only [parseElems]
              rw [hpv]
              simp only []
              rw [hsk]
              simp only []
          | cons h2 t2 =>
              have hpv := parseVal_render h gap ind f (itemPre gap ind)
                (',' :: (renderItems gap ind (.cons h2 t2) ++ (tail ++ ']' :: rest)))
                hfh (wsOnly_itemPre _ _) (by simp +decide [headNotDigit])
              have hpe := parseElems_render (.cons h2 t2) gap ind f tail rest
                (by simp [fuelForL] at hfuel ⊢; omega) (by simp) htail
              simp only [List.append_assoc] at hpv hpe
              rw [show renderItems gap ind (.cons h (.cons h2 t2)) =
                itemPre gap ind ++ renderJson gap ind h ++
                  ',' :: renderItems gap ind (.cons h2 t2) from rfl]
              simp only [List.append_assoc, List.cons_append]
              simp only [parseElems]
              rw [hpv]
              simp only []
              rw [skipWs_cons_not_ws ',' _ (by decide)]
              simp only []
              rw [hpe]

/-- Parsing rendered object members followed by whitespace and the
closing brace yields the member list. -/
theorem parseMembers_render : ∀ (kvs : JsonObj) (gap ind f : Nat) (tail rest : List Char),
    fuelForM kvs ≤ f → kvs ≠ JsonObj.nil → wsOnly tail →
    parseMembers f (renderMembers gap ind kvs ++ tail ++ rbrace :: rest) =
      some (kvs, rest)
  | .nil, _, _, _, _, _ => by
      intro _ hne _
      exact absurd rfl hne
  | .cons k v t, gap, ind, f, tail, rest => by
      intro hfuel _ htail
      cases f with
      | zero => simp [fuelForM] at hfuel
      | succ f =>
          have hfv : fuelFor v ≤ f := by
            simp [fuelForM] at hfuel
            omega
          obtain ⟨csz, hcs, hcsws⟩ := colonSep_shape gap
          cases t with
          | nil =>
              have hskip : skipWs (renderMembers gap ind (.cons k v .nil) ++
                  (tail ++ rbrace :: rest)) =
                  '"' :: (escapeStr k ++ '"' :: (colonSep gap ++
                    (renderJson gap ind v ++ (tail ++ rbrace :: rest)))) := by
                rw [show renderMembers gap ind (.cons k v .nil) ++
                    (tail ++ rbrace :: rest) =
                  itemPre gap ind ++ '"' :: (escapeStr k ++ '"' :: (colonSep gap ++
                    (renderJson gap ind v ++ (tail ++ rbrace :: rest)))) by
                  simp [renderMembers, quoteStr]]
                exact skipWs_through _ (wsOnly_itemPre _ _) _ _ (by decide)
              have hsb : parseStrTok (escapeStr k ++ '"' :: (colonSep gap ++
                  (renderJson gap ind v ++ (tail ++ rbrace :: rest)))) =
                  some (k, colonSep gap ++ (renderJson gap ind v ++
                    (tail ++ rbrace :: rest))) :=
                parseStrTok_escapeStr k _
              have hskc : skipWs (colonSep gap ++ (renderJson gap ind v ++
                  (tail ++ rbrace :: rest))) =
                  ':' :: (csz ++ (renderJson gap ind v ++ (tail ++ rbrace :: rest))) := by
                rw [hcs]
                simp only [List.cons_append]
                exact skipWs_cons_not_ws ':' _ (by decide)
              have hpv := parseVal_render v gap ind f csz (tail ++ rbrace :: rest)
                hfv hcsws (headNotDigit_wsOnly_cons tail rbrace rest htail (by decide))
              have hskend : skipWs (tail ++ rbrace :: rest) = rbrace :: rest :=
                skipWs_through tail htail rbrace rest (by decide)
              simp only [List.append_assoc] at hpv
              simp only [List.append_assoc]
              simp only [parseMembers]
              rw [hskip]
              simp only []
              rw [hsb]
              simp only []
              rw [hskc]
              simp only []
              rw [hpv]
              simp only []
              rw [hskend]
              simp +decide
          | cons k2 v2 t2 =>
              have hskip : skipWs (renderMembers gap ind (.cons k v (.cons k2 v2 t2)) ++
                  (tail ++ rbrace :: rest)) =
                  '"' :: (escapeStr k ++ '"' :: (colonSep gap ++
                    (renderJson gap ind v ++ (',' :: (renderMembers gap ind
                      (.cons k2 v2 t2) ++ (tail ++ rbrace :: rest)))))) := by
                rw [show renderMembers gap ind (.cons k v (.cons k2 v2 t2)) ++
                    (tail ++ rbrace :: rest) =
                  itemPre gap ind ++ '"' :: (escapeStr k ++ '"' :: (colonSep gap ++
                    (renderJson gap ind v ++ (',' :: (renderMembers gap ind
                      (.cons k2 v2 t2) ++ (tail ++ rbrace :: rest)))))) by
                  simp [renderMembers, quoteStr]]
                exact skipWs_through _ (wsOnly_itemPre _ _) _ _ (by decide)
              have hsb : parseStrTok (escapeStr k ++ '"' :: (colonSep gap ++
                  (renderJson gap ind v ++ (',' :: (renderMembers gap ind
                    (.cons k2 v2 t2) ++ (tail ++ rbrace :: rest)))))) =
                  some (k, colonSep gap ++ (renderJson gap ind v ++
                    (',' :: (renderMembers gap ind (.cons k2 v2 t2) ++
                      (tail ++ rbrace :: rest))))) :=
                parseStrTok_escapeStr k _
              have hskc : skipWs (colonSep gap ++ (renderJson gap ind v ++
                  (',' :: (renderMembers gap ind (.cons k2 v2 t2) ++
                    (tail ++ rbrace :: rest))))) =
                  ':' :: (csz ++ (renderJson gap ind v ++
                    (',' :: (renderMembers gap ind (.cons k2 v2 t2) ++
                      (tail ++ rbrace :: rest))))) := by
                rw [hcs]
                simp only [List.cons_append]
                exact skipWs_cons_not_ws ':' _ (by decide)
              have hpv := parseVal_render v gap ind f csz
                (',' :: (renderMembers gap ind (.cons k2 v2 t2) ++
                  (tail ++ rbrace :: rest)))
                hfv hcsws (by simp +decide [headNotDigit])
              have hpm := parseMembers_render (.cons k2 v2 t2) gap ind f tail rest
                (by simp [fuelForM] at hfuel ⊢; omega) (by simp) htail
              simp only [List.append_assoc] at hpv hpm
              simp only [List.append_assoc]
              simp only [parseMembers]
              rw [hskip]
              simp only []
              rw [hsb]
              simp only []
              rw [hskc]
              simp only []
              rw [hpv]
              simp only []
              rw [skipWs_cons_not_ws ',' _ (by decide)]
              simp +decide only [if_pos, if_neg, if_true, if_false]
              rw [hpm]

end

mutual

/-- The fuel a value needs is bounded by its rendered length. -/
theorem fuelFor_le_length : ∀ (gap ind : Nat) (v : Json),
    fuelFor v ≤ (renderJson gap ind v).length
  | gap, ind, .null => by simp [fuelFor, renderJson]
  | gap, ind, .bool b => by cases b <;> simp [fuelFor, renderJson]
  | gap, ind, .num n => by
      simp only [fuelFor, renderJson]
      have h1 : intToChars n ≠ [] := intToChars_ne_nil n
      exact List.length_pos.mpr h1
  | gap, ind, .str s => by simp [fuelFor, renderJson, quoteStr]
  | gap, ind, .arr .nil => by simp [fuelFor, fuelForL, renderJson]
  | gap, ind, .arr (.cons h t) => by
      have hb := fuelForL_le_length gap (ind + gap) (.cons h t)
      simp only [fuelFor, renderJson, List.length_cons, List.length_append]
      omega
  | gap, ind, .obj .nil => by simp [fuelFor, fuelForM, renderJson]
  | gap, ind, .obj (.cons k v t) => by
      have hb := fuelForM_le_length gap (ind + gap) (.cons k v t)
      simp only [fuelFor, renderJson, List.length_cons, List.length_append]
      omega

/-- The fuel an item list needs is bounded by its rendered length plus
one. -/
theorem fuelForL_le_length : ∀ (gap ind : Nat) (xs : JsonList),
    fuelForL xs ≤ (renderItems gap ind xs).length + 1
  | gap, ind, .nil => by simp [fuelForL]
  | gap, ind, .cons h .nil => by
      have h1 := fuelFor_le_length gap ind h
      simp only [fuelForL, renderItems, List.length_append]
      omega
  | gap, ind, .cons h (.cons h2 t2) => by
      have h1 := fuelFor_le_length gap ind h
      have h2 := fuelForL_le_length gap ind (.cons h2 t2)
      simp only [fuelForL, renderItems, List.length_append, List.length_cons] at h2 ⊢
      omega

/-- The fuel a member list needs is bounded by its rendered length plus
one. -/
theorem fuelForM_le_length : ∀ (gap ind : Nat) (kvs : JsonObj),
    fuelForM kvs ≤ (renderMembers gap ind kvs).length + 1
  | gap, ind, .nil => by simp [fuelForM]
  | gap, ind, .cons k v .nil => by
      have h1 := fuelFor_le_length gap ind v
      simp only [fuelForM, renderMembers, List.length_append]
      omega
  | gap, ind, .cons k v (.cons k2 v2 t2) => by
      have h1 := fuelFor_le_length gap ind v
      have h2 := fuelForM_le_length gap ind (.cons k2 v2 t2)
      simp only [fuelForM, renderMembers, List.length_append, List.length_cons] at h2 ⊢
      omega

end

/-- Full JSON round-trip: parsing a rendered document recovers it, for
any indentation width. -/
theorem parseJson_render (gap : Nat) (v : Json) :
    parseJson (renderJson gap 0 v) = some v := by
  have hf : fuelFor v ≤ (renderJson gap 0 v).length + 1 :=
    le_trans (fuelFor_le_length gap 0 v) (by omega)
  have hp := parseVal_render v gap 0 ((renderJson gap 0 v).length + 1) [] []
    hf wsOnly_nil trivial
  simp only [List.nil_append, List.append_nil] at hp
  simp only [parseJson]
  rw [hp]
  simp [skipWs]

/-- The keyed stream transformation is an involution: applying it twice
from the same position restores the bytes. -/
theorem cipherFrom_invol (key : List Char) : ∀ (i : Nat) (bs : List Nat),
    cipherFrom key i (cipherFrom key i bs) = bs
  | _, [] => rfl
  | i, b :: r => by
      simp [cipherFrom, Nat.xor_cancel_right, cipherFrom_invol key (i + 1) r]

/-- Decryption undoes encryption under the same key. -/
theorem decrypt_encrypt (key : List Char) (bs : List Nat) :
    _decryptData key (_encryptData key bs) = bs :=
  cipherFrom_invol key 0 bs

/-- Byte decoding undoes byte encoding. -/
theorem bytesToStr_strToBytes (s : List Char) : bytesToStr (strToBytes s) = s := by
  induction s with
  | nil => rfl
  | cons c r ih => simp [bytesToStr, strToBytes, Char.ofNat_toNat] at ih ⊢; exact ih

/-- Codec round-trip: reconstructing prepared settings data yields the
original document, for every configuration (with or without an
encryption key, with or without prettifying). -/
theorem reconstruct_prepare (cfg : Config) (obj : Json) :
    ElectronSettings._reconstructSettingsData cfg
      (ElectronSettings._prepareSettingsData cfg obj) = Except.ok obj := by
  unfold ElectronSettings._prepareSettingsData ElectronSettings._reconstructSettingsData
  cases hk : cfg.encryptionKey with
  | none => simp [hk, bytesToStr_strToBytes, parseJson_render]
  | some key =>
      simp [hk, decrypt_encrypt, bytesToStr_strToBytes, parseJson_render]

/-- Splitting a key path never produces an empty segment list. -/
theorem splitSegsAcc_ne_nil (acc s : List Char) : splitSegsAcc acc s ≠ [] := by
  induction acc, s using splitSegsAcc.induct with
  | case1 acc => simp [splitSegsAcc]
  | case2 acc r ih => simpa [splitSegsAcc] using ih
  | case3 acc r ih => simp [splitSegsAcc]
  | case4 acc c r h1 h2 ih => simpa [splitSegsAcc, h1, h2] using ih

/-- A key path splits into at least one segment. -/
theorem splitKeyPath_ne_nil (p : List Char) : splitKeyPath p ≠ [] :=
  splitSegsAcc_ne_nil [] p

/-- Looking up a freshly assigned key yields the assigned value. -/
theorem lookupKey_setKey : ∀ (m : JsonObj) (k : List Char) (v : Json),
    lookupKey (setKey m k v) k = some v
  | .nil, k, v => by simp [setKey, lookupKey]
  | .cons k' v' t, k, v => by
      by_cases h : k' = k
      · simp [setKey, h, lookupKey]
      · simp [setKey, h, lookupKey, lookupKey_setKey t k v]

/-- Reading back a freshly set path yields the set value: the
fundamental get-after-set property of the accessor walk. -/
theorem getAtSegs_setAtSegs : ∀ (segs : List (List Char)) (root v : Json),
    segs ≠ [] → getAtSegs (setAtSegs root segs v) segs = some v
  | [], _, _, h => absurd rfl h
  | k :: rest, root, v, _ => by
      simp only [setAtSegs, getAtSegs, lookupKey_setKey]
      cases rest with
      | nil => simp [setAtSegs, getAtSegs]
      | cons s2 r2 =>
          exact getAtSegs_setAtSegs (s2 :: r2) _ v (by simp)

/-- Get-after-set for the accessor's public entry points. -/
theorem getValueAtKeyPath_setValueAtKeyPath (obj : Json) (p : List Char) (v : Json) :
    getValueAtKeyPath (setValueAtKeyPath obj p v) p = some v :=
  getAtSegs_setAtSegs (splitKeyPath p) obj v (splitKeyPath_ne_nil p)

mutual

/-- The spec's validity notion for key paths, stated from its words
for comparison with the source's `isKeyPath`: a value is valid iff it
is a string, or a non-empty array in which every element recursively
validates as a key path; anything else is invalid. -/
def specValidKeyPath : Json → Bool
  | .str _ => true
  | .arr .nil => false
  | .arr (.cons x t) => specValidList (.cons x t)
  | _ => false

/-- Every element of the list validates as a key path. -/
def specValidList : JsonList → Bool
  | .nil => true
  | .cons x t => specValidKeyPath x && specValidList t

end

mutual

/-- The source's `isKeyPath` is truthy exactly on the spec's valid key
paths. -/
theorem truthy_isKeyPath_eq : ∀ (x : Json), truthy (isKeyPath x) = specValidKeyPath x
  | .null => by simp [isKeyPath, truthy, specValidKeyPath]
  | .bool b => by simp [isKeyPath, truthy, specValidKeyPath]
  | .num n => by simp [isKeyPath, truthy, specValidKeyPath]
  | .str s => by simp [isKeyPath, truthy, specValidKeyPath]
  | .obj kvs => by simp [isKeyPath, truthy, specValidKeyPath]
  | .arr xs => by
      simp only [isKeyPath]
      exact truthy_isKeyPathLoop_eq xs

/-- The element loop is truthy exactly when the array form is valid:
false for the empty array (where the loop returns `undefined`), and
conjunction of element validity otherwise. -/
theorem truthy_isKeyPathLoop_eq : ∀ (xs : JsonList),
    truthy (isKeyPathLoop xs) = specValidKeyPath (.arr xs)
  | .nil => by simp [isKeyPathLoop, truthy, specValidKeyPath]
  | .cons x t => by
      have hx := truthy_isKeyPath_eq x
      simp only [truthy] at hx ⊢
      cases t with
      | nil =>
          by_cases h : (isKeyPath x).getD false = false
          · simp [isKeyPathLoop, specValidKeyPath, specValidList, truthy, h, ← hx]
          · have h2 : (isKeyPath x).getD false = true := by
              cases hh : (isKeyPath x).getD false
              · exact absurd hh h
              · rfl
            simp [isKeyPathLoop, specValidKeyPath, specValidList, truthy, h2, ← hx]
      | cons y t2 =>
          have ih := truthy_isKeyPathLoop_eq (.cons y t2)
          simp only [truthy, specValidKeyPath] at ih
          by_cases h : (isKeyPath x).getD false = false
          · simp [isKeyPathLoop, specValidKeyPath, specValidList, truthy, h, ← hx]
          · have h2 : (isKeyPath x).getD false = true := by
              cases hh : (isKeyPath x).getD false
              · exact absurd hh h
              · rfl
            simp [isKeyPathLoop, specValidKeyPath, specValidList, truthy, h2, ← hx, ih]

end

namespace ElectronSettings

/-- A failed directory stat aborts a synchronous save untouched. -/
theorem saveSettingsSync_dirFail (cfg : Config) (obj : Json) (fs : FS)
    (h : fs.dirStat = StatR.fail) :
    _saveSettingsSync cfg obj fs = (Except.error SErr.statFail, fs) := by
  unfold _saveSettingsSync _writeSettingsFileSync _ensureSettingsDirSync
  simp [h]

/-- A synchronous save with a working directory stat writes the
prepared bytes and leaves both stats succeeding. -/
theorem saveSettingsSync_ok (cfg : Config) (obj : Json) (fs : FS)
    (h : fs.dirStat ≠ StatR.fail) :
    _saveSettingsSync cfg obj fs =
      (Except.ok Unit.unit,
        ⟨StatR.ok, StatR.ok, _prepareSettingsData cfg obj⟩) := by
  obtain ⟨d, f, data⟩ := fs
  unfold _saveSettingsSync _writeSettingsFileSync _ensureSettingsDirSync
  cases d with
  | ok => by_cases ha : cfg.atomicSave <;> simp [ha]
  | enoent => by_cases ha : cfg.atomicSave <;> simp [ha]
  | fail => exact absurd rfl h

/-- Loading from an existing file reconstructs its bytes and leaves
the state untouched. -/
theorem loadSettingsSync_fileOk (cfg : Config) (fs : FS)
    (h : fs.fileStat = StatR.ok) :
    _loadSettingsSync cfg fs = (_reconstructSettingsData cfg fs.data, fs) := by
  unfold _loadSettingsSync _ensureSettingsFileSync _readSettingsFileSync
  simp [h]

/-- Loading from a missing file first saves an empty document, then
reads it back. -/
theorem loadSettingsSync_enoent (cfg : Config) (fs : FS)
    (hf : fs.fileStat = StatR.enoent) (hd : fs.dirStat ≠ StatR.fail) :
    _loadSettingsSync cfg fs =
      (Except.ok (Json.obj JsonObj.nil),
        ⟨StatR.ok, StatR.ok,
          _prepareSettingsData cfg (Json.obj JsonObj.nil)⟩) := by
  unfold _loadSettingsSync _ensureSettingsFileSync
  rw [hf]
  simp only []
  rw [saveSettingsSync_ok cfg _ fs hd]
  simp only [_readSettingsFileSync]
  simp [reconstruct_prepare]

/-- Loading propagates a non-`ENOENT` file-stat failure untouched. -/
theorem loadSettingsSync_fileFail (cfg : Config) (fs : FS)
    (h : fs.fileStat = StatR.fail) :
    _loadSettingsSync cfg fs = (Except.error SErr.statFail, fs) := by
  unfold _loadSettingsSync _ensureSettingsFileSync
  simp [h]

/-- Loading from a missing file propagates a directory-stat failure
untouched. -/
theorem loadSettingsSync_enoent_dirFail (cfg : Config) (fs : FS)
    (hf : fs.fileStat = StatR.enoent) (hd : fs.dirStat = StatR.fail) :
    _loadSettingsSync cfg fs = (Except.error SErr.statFail, fs) := by
  unfold _loadSettingsSync _ensureSettingsFileSync
  rw [hf]
  simp only []
  rw [saveSettingsSync_dirFail cfg _ fs hd]

end ElectronSettings

namespace ElectronSettings

/-- The callback chain and the synchronous chain compute identically
for `get`. -/
theorem get_eq_getSync (cfg : Config) (arg : Option Json) (fs : FS) :
    get cfg arg fs = getSync cfg arg fs := rfl

/-- The callback chain and the synchronous chain compute identically
for `has`. -/
theorem has_eq_hasSync (cfg : Config) (a : Json) (fs : FS) :
    has cfg a fs = hasSync cfg a fs := rfl

/-- The callback chain and the synchronous chain compute identically
for `set`. -/
theorem set_eq_setSync (cfg : Config) (a1 a2 : Json) (fs : FS) :
    set cfg a1 a2 fs = setSync cfg a1 a2 fs := rfl

/-- The callback chain and the synchronous chain compute identically
for `delete`. -/
theorem delete_eq_deleteSync (cfg : Config) (a : Json) (fs : FS) :
    delete cfg a fs = deleteSync cfg a fs := rfl

end ElectronSettings

namespace ElectronSettings

/-- Inversion for a successful synchronous save: the directory and
file stats both succeed afterwards and the file holds exactly the
prepared bytes. -/
theorem saveSettingsSync_ok_inv (cfg : Config) (obj : Json) (fs fs2 : FS)
    (h : _saveSettingsSync cfg obj fs = (Except.ok Unit.unit, fs2)) :
    fs2 = ⟨StatR.ok, StatR.ok, _prepareSettingsData cfg obj⟩ := by
  by_cases hd : fs.dirStat = StatR.fail
  · rw [saveSettingsSync_dirFail cfg obj fs hd] at h
    simp at h
  · rw [saveSettingsSync_ok cfg obj fs hd] at h
    simp at h
    exact h.symm

/-- Inversion for a successful synchronous load: the file stat
succeeds afterwards, the loaded document reconstructs from the final
bytes, and a load that began with a missing file leaves the freshly
initialized empty-document file. -/
theorem loadSettingsSync_ok_inv (cfg : Config) (fs : FS) (d : Json) (fs2 : FS)
    (h : _loadSettingsSync cfg fs = (Except.ok d, fs2)) :
    fs2.fileStat = StatR.ok ∧ _reconstructSettingsData cfg fs2.data = Except.ok d ∧
      (fs.fileStat = StatR.enoent →
        fs2 = ⟨StatR.ok, StatR.ok,
          _prepareSettingsData cfg (Json.obj JsonObj.nil)⟩ ∧ d = Json.obj JsonObj.nil) := by
  cases hf : fs.fileStat with
  | ok =>
      rw [loadSettingsSync_fileOk cfg fs hf] at h
      rw [Prod.ext_iff] at h
      simp only [] at h
      obtain ⟨h1, h2⟩ := h
      refine ⟨by rw [← h2]; exact hf, by rw [← h2]; exact h1, ?_⟩
      intro he
      exact absurd he (by simp [hf])
  | enoent =>
      by_cases hd : fs.dirStat = StatR.fail
      · rw [loadSettingsSync_enoent_dirFail cfg fs hf hd] at h
        simp at h
      · rw [loadSettingsSync_enoent cfg fs hf hd] at h
        rw [Prod.ext_iff] at h
        simp only [] at h
        obtain ⟨h1, h2⟩ := h
        have hd2 : Json.obj JsonObj.nil = d := by simpa using h1
        refine ⟨by rw [← h2], ?_, fun _ => ⟨h2.symm, hd2.symm⟩⟩
        rw [← h2]
        show _reconstructSettingsData cfg
          (_prepareSettingsData cfg (Json.obj JsonObj.nil)) = Except.ok d
        rw [reconstruct_prepare, hd2]
  | fail =>
      rw [loadSettingsSync_fileFail cfg fs hf] at h
      simp at h

/-- Inversion for a successful synchronous set through a key-path
argument: the final state holds the prepared bytes of a document whose
value at the path is the one that was set (or is the value itself when
the flattened path is empty). -/
theorem setValueAtKeyPathSync_ok_inv (cfg : Config) (p : List Char) (v : Json)
    (fs fs2 : FS)
    (h : _setValueAtKeyPathSync cfg (some p) v fs = (Except.ok Unit.unit, fs2)) :
    ∃ d : Json, fs2 = ⟨StatR.ok, StatR.ok, _prepareSettingsData cfg d⟩ ∧
      (p.isEmpty = false → getValueAtKeyPath d p = some v) ∧
      (p.isEmpty = true → d = v) := by
  unfold _setValueAtKeyPathSync at h
  by_cases hp : p.isEmpty
  · rw [if_neg (by simp [truthyKeyPath, hp])] at h
    refine ⟨v, saveSettingsSync_ok_inv cfg v fs fs2 h, ?_, fun _ => rfl⟩
    intro hfalse
    rw [hp] at hfalse
    cases hfalse
  · rw [if_pos (by simp [truthyKeyPath]; simpa using hp)] at h
    rcases hload : _loadSettingsSync cfg fs with ⟨res, fs1⟩
    rw [hload] at h
    cases res with
    | error e => simp at h
    | ok d0 =>
        simp only [] at h
        refine ⟨setValueAtKeyPath d0 p v,
          saveSettingsSync_ok_inv cfg _ fs1 fs2 h,
          fun _ => getValueAtKeyPath_setValueAtKeyPath d0 p v, ?_⟩
        intro ht
        exact absurd ht (by simpa using hp)

/-- Reading any key path from a store whose file holds freshly
prepared bytes: the whole document for a falsy path, the accessor
lookup for a truthy one. -/
theorem getValueAtKeyPathSync_saved (cfg : Config) (kp : Option (List Char)) (d : Json) :
    _getValueAtKeyPathSync cfg kp
      ⟨StatR.ok, StatR.ok, _prepareSettingsData cfg d⟩ =
      (Except.ok (if truthyKeyPath kp then getValueAtKeyPath d (kp.getD [])
        else some d),
       ⟨StatR.ok, StatR.ok, _prepareSettingsData cfg d⟩) := by
  unfold _getValueAtKeyPathSync
  rw [loadSettingsSync_fileOk cfg _ rfl]
  simp only [reconstruct_prepare]
  by_cases ht : truthyKeyPath kp <;> simp [ht]

end ElectronSettings

/-- Claim C3: for every operation (get, has, set, delete) and every
input (key-path argument, value, store configuration, file state), the
blocking variant and the callback variant produce the same result or
error and leave the stored file in the same state. -/
theorem claim_C3 :
    (∀ (cfg : Config) (arg : Option Json) (fs : FS),
      ElectronSettings.get cfg arg fs = ElectronSettings.getSync cfg arg fs) ∧
    (∀ (cfg : Config) (a : Json) (fs : FS),
      ElectronSettings.has cfg a fs = ElectronSettings.hasSync cfg a fs) ∧
    (∀ (cfg : Config) (a1 a2 : Json) (fs : FS),
      ElectronSettings.set cfg a1 a2 fs = ElectronSettings.setSync cfg a1 a2 fs) ∧
    (∀ (cfg : Config) (a : Json) (fs : FS),
      ElectronSettings.delete cfg a fs = ElectronSettings.deleteSync cfg a fs) :=
  ⟨fun _ _ _ => rfl, fun _ _ _ => rfl, fun _ _ _ _ => rfl, fun _ _ _ => rfl⟩

/-- Claim C4: decoding the bytes produced by encoding any document
under any store configuration (with or without an encryption key, with
or without prettifying) yields the original document. -/
theorem claim_C4 (cfg : Config) (doc : Json) :
    ElectronSettings._reconstructSettingsData cfg
      (ElectronSettings._prepareSettingsData cfg doc) = Except.ok doc :=
  reconstruct_prepare cfg doc

/-- Claim C5: the key-path validity test accepts a value (produces a
truthy result) exactly when the value is a string or a non-empty array
whose elements are all recursively valid key paths; every other value
(including the empty array, where the source returns `undefined`)
produces a falsy result. -/
theorem claim_C5 (x : Json) : truthy (isKeyPath x) = specValidKeyPath x :=
  truthy_isKeyPath_eq x

/-- Claim C6: flattening joins recursively normalized elements with a
dot — a plain string unchanged, `normalize(['a','b']) = 'a.b'`,
`normalize([['a','b'],'c']) = 'a.b.c'` — and setting through a valid
array key path is the same operation as setting through its flattened
dotted string. -/
theorem claim_C6 :
    (∀ (s : List Char), flattenKeyPath (.str s) = .str s) ∧
    (∀ (xs : JsonList),
      flattenKeyPath (.arr xs) = .str (joinDot (flattenItems xs))) ∧
    (flattenKeyPath (.arr (.cons (.str ['a']) (.cons (.str ['b']) .nil))) =
      .str ['a', '.', 'b']) ∧
    (flattenKeyPath (.arr (.cons (.arr (.cons (.str ['a'])
        (.cons (.str ['b']) .nil))) (.cons (.str ['c']) .nil))) =
      .str ['a', '.', 'b', '.', 'c']) ∧
    (∀ (xs : JsonList) (v : Json) (cfg : Config) (fs : FS),
      truthy (isKeyPath (.arr xs)) = true →
      ElectronSettings.setSync cfg (.arr xs) v fs =
        ElectronSettings.setSync cfg (flattenKeyPath (.arr xs)) v fs) := by
  refine ⟨fun s => rfl, fun xs => rfl, by decide, by decide, ?_⟩
  intro xs v cfg fs h
  have h2 : (isKeyPathLoop xs).getD false = true := by
    simpa [isKeyPath, truthy] using h
  simp [ElectronSettings.setSync, flattenKeyPath, isKeyPath, truthy, coerceStr, h2]

/-- Claim C6 witness: setting through the array path `['a','b']` is
the very call made through its flattened string path. -/
theorem claim_C6_witness :
    ElectronSettings.setSync defaults
      (.arr (.cons (.str ['a']) (.cons (.str ['b']) .nil))) (Json.num 1)
      ⟨StatR.ok, StatR.enoent, []⟩ =
    ElectronSettings.setSync defaults
      (flattenKeyPath (.arr (.cons (.str ['a']) (.cons (.str ['b']) .nil))))
      (Json.num 1) ⟨StatR.ok, StatR.enoent, []⟩ :=
  claim_C6.2.2.2.2 (.cons (.str ['a']) (.cons (.str ['b']) .nil)) (Json.num 1)
    defaults ⟨StatR.ok, StatR.enoent, []⟩ (by decide)

/-- Claim C2 counterexample: `setSync` called with a first argument
that is not a usable key path (the number 42) does not raise the
invalid-key-path error — it completes successfully, saving 42 as the
whole document. This refutes the claim as stated for `set`. -/
theorem claim_C2_counterexample :
    ElectronSettings.setSync defaults (Json.num 42) (Json.str ['x'])
      ⟨StatR.ok, StatR.enoent, []⟩ =
      (Except.ok Unit.unit, ⟨StatR.ok, StatR.ok, [52, 50]⟩) := by rfl

/-- Claim C2 (amended): `has` and `delete`, in both calling
conventions, raise the invalid-key-path error synchronously when the
first argument is not a usable key path — before any I/O, for every
file-system state (even one whose stats fail), leaving the state
untouched; `set` with a non-key-path first argument instead proceeds,
dispatching it as a whole-document replacement. -/
theorem claim_C2 :
    (∀ (cfg : Config) (a : Json) (fs : FS), truthy (isKeyPath a) = false →
      ElectronSettings.has cfg a fs = (Except.error SErr.invalidKeyPath, fs) ∧
      ElectronSettings.hasSync cfg a fs = (Except.error SErr.invalidKeyPath, fs) ∧
      ElectronSettings.delete cfg a fs = (Except.error SErr.invalidKeyPath, fs) ∧
      ElectronSettings.deleteSync cfg a fs = (Except.error SErr.invalidKeyPath, fs)) ∧
    (∀ (cfg : Config) (a1 a2 : Json) (fs : FS), truthy (isKeyPath a1) = false →
      ElectronSettings.set cfg a1 a2 fs =
        ElectronSettings._setValueAtKeyPath cfg none a1 fs ∧
      ElectronSettings.setSync cfg a1 a2 fs =
        ElectronSettings._setValueAtKeyPathSync cfg none a1 fs) := by
  constructor
  · intro cfg a fs h
    refine ⟨?_, ?_, ?_, ?_⟩ <;>
      simp [ElectronSettings.has, ElectronSettings.hasSync,
        ElectronSettings.delete, ElectronSettings.deleteSync, h]
  · intro cfg a1 a2 fs h
    refine ⟨?_, ?_⟩ <;>
      simp [ElectronSettings.set, ElectronSettings.setSync, h]

/-- Claim C2 witness: `hasSync` with the number 42 raises the
invalid-key-path error on a state whose stats would fail any I/O,
leaving that state untouched. -/
theorem claim_C2_witness :
    ElectronSettings.hasSync defaults (Json.num 42) ⟨StatR.fail, StatR.fail, []⟩ =
      (Except.error SErr.invalidKeyPath, ⟨StatR.fail, StatR.fail, []⟩) :=
  ((claim_C2.1 defaults (Json.num 42) ⟨StatR.fail, StatR.fail, []⟩ (by decide)).2).1

/-- Claim C9: encoding serializes with `numSpaces` indentation when
`prettify` is set and with no extra whitespace (indent 0) otherwise;
concretely, `setSync('foo','bar')` on an empty store with
`prettify: true, numSpaces: 4` produces a file holding the four-space
indented object, and with the defaults the compact object. -/
theorem claim_C9 :
    (∀ (cfg : Config) (doc : Json), cfg.encryptionKey = none →
      ElectronSettings._prepareSettingsData cfg doc =
        strToBytes (renderJson (if cfg.prettify then cfg.numSpaces else 0) 0 doc)) ∧
    (ElectronSettings.setSync
        { atomicSave := true, prettify := true, numSpaces := 4,
          encryptionKey := none }
        (Json.str ['f', 'o', 'o']) (Json.str ['b', 'a', 'r'])
        ⟨StatR.ok, StatR.enoent, []⟩ =
      (Except.ok Unit.unit,
        ⟨StatR.ok, StatR.ok,
          strToBytes (lbrace :: '\n' :: ' ' :: ' ' :: ' ' :: ' ' :: '"' :: 'f' ::
            'o' :: 'o' :: '"' :: ':' :: ' ' :: '"' :: 'b' :: 'a' :: 'r' :: '"' ::
            '\n' :: rbrace :: [])⟩)) ∧
    (ElectronSettings.setSync defaults
        (Json.str ['f', 'o', 'o']) (Json.str ['b', 'a', 'r'])
        ⟨StatR.ok, StatR.enoent, []⟩ =
      (Except.ok Unit.unit,
        ⟨StatR.ok, StatR.ok,
          strToBytes (lbrace :: '"' :: 'f' :: 'o' :: 'o' :: '"' :: ':' :: '"' ::
            'b' :: 'a' :: 'r' :: '"' :: rbrace :: [])⟩)) := by
  refine ⟨?_, by rfl, by rfl⟩
  intro cfg doc hk
  simp [ElectronSettings._prepareSettingsData, hk]

/-- Claim C9 witness: the general encoding equation applied to the
default configuration and the null document. -/
theorem claim_C9_witness :
    ElectronSettings._prepareSettingsData defaults Json.null =
      strToBytes (renderJson (if defaults.prettify then defaults.numSpaces else 0) 0
        Json.null) :=
  claim_C9.1 defaults Json.null rfl

/-- Claim C10: `get`/`getSync` with the empty string, or with any
non-key-path first argument, are dispatched exactly as the no-key-path
call and produce the entire document; `set`/`setSync` with the empty
string save the second argument as the whole document, and with a
non-key-path first argument save that first argument itself as the
whole document. -/
theorem claim_C10 :
    (∀ (cfg : Config) (fs : FS),
      ElectronSettings.getSync cfg (some (Json.str [])) fs =
        ElectronSettings._getValueAtKeyPathSync cfg none fs) ∧
    (∀ (cfg : Config) (a : Json) (fs : FS), truthy (isKeyPath a) = false →
      ElectronSettings.getSync cfg (some a) fs =
        ElectronSettings._getValueAtKeyPathSync cfg none fs) ∧
    (∀ (cfg : Config) (fs : FS) (d : Json) (fs2 : FS),
      ElectronSettings._loadSettingsSync cfg fs = (Except.ok d, fs2) →
      ElectronSettings._getValueAtKeyPathSync cfg none fs = (Except.ok (some d), fs2)) ∧
    (∀ (cfg : Config) (v : Json) (fs : FS),
      ElectronSettings.setSync cfg (Json.str []) v fs =
        ElectronSettings._saveSettingsSync cfg v fs) ∧
    (∀ (cfg : Config) (a v : Json) (fs : FS), truthy (isKeyPath a) = false →
      ElectronSettings.setSync cfg a v fs =
        ElectronSettings._saveSettingsSync cfg a fs) := by
  refine ⟨?_, ?_, ?_, ?_, ?_⟩
  · intro cfg fs
    show ElectronSettings._getValueAtKeyPathSync cfg (some []) fs = _
    unfold ElectronSettings._getValueAtKeyPathSync
    simp [truthyKeyPath]
  · intro cfg a fs h
    simp [ElectronSettings.getSync, h]
  · intro cfg fs d fs2 h
    unfold ElectronSettings._getValueAtKeyPathSync
    rw [h]
    simp [truthyKeyPath]
  · intro cfg v fs
    show ElectronSettings._setValueAtKeyPathSync cfg (some []) v fs = _
    unfold ElectronSettings._setValueAtKeyPathSync
    simp [truthyKeyPath]
  · intro cfg a v fs h
    simp only [ElectronSettings.setSync, h, Bool.false_eq_true, if_false]
    unfold ElectronSettings._setValueAtKeyPathSync
    simp [truthyKeyPath]

/-- Claim C10 witness: `setSync` with the non-key-path argument 42
saves 42 itself as the whole document, ignoring the would-be value. -/
theorem claim_C10_witness :
    ElectronSettings.setSync defaults (Json.num 42) (Json.str ['x'])
      ⟨StatR.ok, StatR.enoent, []⟩ =
      ElectronSettings._saveSettingsSync defaults (Json.num 42)
        ⟨StatR.ok, StatR.enoent, []⟩ :=
  claim_C10.2.2.2.2 defaults (Json.num 42) (Json.str ['x'])
    ⟨StatR.ok, StatR.enoent, []⟩ (by decide)

/-- Claim C1: for every valid key path and every value, a successful
`setSync` followed by `getSync` on the same store produces exactly the
value that was set. -/
theorem claim_C1 (a v : Json) (cfg : Config) (fs fs2 : FS)
    (hkey : truthy (isKeyPath a) = true)
    (hset : ElectronSettings.setSync cfg a v fs = (Except.ok Unit.unit, fs2)) :
    ElectronSettings.getSync cfg (some a) fs2 = (Except.ok (some v), fs2) := by
  have hset2 : ElectronSettings._setValueAtKeyPathSync cfg
      (some (coerceStr (flattenKeyPath a))) v fs = (Except.ok Unit.unit, fs2) := by
    simpa [ElectronSettings.setSync, hkey] using hset
  obtain ⟨d, hfs2, h1, h2⟩ :=
    ElectronSettings.setValueAtKeyPathSync_ok_inv cfg _ v fs fs2 hset2
  subst hfs2
  simp only [ElectronSettings.getSync, hkey, if_true]
  rw [ElectronSettings.getValueAtKeyPathSync_saved cfg
    (some (coerceStr (flattenKeyPath a))) d]
  by_cases he : (coerceStr (flattenKeyPath a)).isEmpty
  · simp [truthyKeyPath, he, h2 he]
  · have he2 : (coerceStr (flattenKeyPath a)).isEmpty = false := by
      simpa using he
    simp [truthyKeyPath, he2, h1 he2]

/-- Claim C1 witness: set then get of the key `a` on an initially
missing file recovers the stored number. -/
theorem claim_C1_witness :
    truthy (isKeyPath (Json.str ['a'])) = true ∧
    ElectronSettings.setSync defaults (Json.str ['a']) (Json.num 7)
      ⟨StatR.ok, StatR.enoent, []⟩ =
      (Except.ok Unit.unit,
        ⟨StatR.ok, StatR.ok, ElectronSettings._prepareSettingsData defaults
          (Json.obj (JsonObj.cons ['a'] (Json.num 7) JsonObj.nil))⟩) ∧
    ElectronSettings.getSync defaults (some (Json.str ['a']))
      ⟨StatR.ok, StatR.ok, ElectronSettings._prepareSettingsData defaults
        (Json.obj (JsonObj.cons ['a'] (Json.num 7) JsonObj.nil))⟩ =
      (Except.ok (some (Json.num 7)),
       ⟨StatR.ok, StatR.ok, ElectronSettings._prepareSettingsData defaults
         (Json.obj (JsonObj.cons ['a'] (Json.num 7) JsonObj.nil))⟩) :=
  ⟨rfl, rfl, claim_C1 (Json.str ['a']) (Json.num 7) defaults
    ⟨StatR.ok, StatR.enoent, []⟩ _ rfl rfl⟩

namespace ElectronSettings

/-- A successful keyed read implies a successful load with the same
final state. -/
theorem getValueAtKeyPathSync_ok_inv (cfg : Config) (kp : Option (List Char))
    (fs : FS) (r : Option Json) (fs2 : FS)
    (h : _getValueAtKeyPathSync cfg kp fs = (Except.ok r, fs2)) :
    ∃ d, _loadSettingsSync cfg fs = (Except.ok d, fs2) := by
  unfold _getValueAtKeyPathSync at h
  rcases hl : _loadSettingsSync cfg fs with ⟨res, fs1⟩
  rw [hl] at h
  cases res with
  | error e => simp at h
  | ok d =>
      simp only [] at h
      refine ⟨d, ?_⟩
      by_cases ht : truthyKeyPath kp
      · rw [if_pos ht] at h
        have hfs : fs1 = fs2 := congrArg Prod.snd h
        rw [hfs]
      · rw [if_neg ht] at h
        have hfs : fs1 = fs2 := congrArg Prod.snd h
        rw [hfs]

/-- A successful existence check implies a successful load with the
same final state. -/
theorem hasKeyPathSync_ok_inv (cfg : Config) (kp : List Char)
    (fs : FS) (r : Bool) (fs2 : FS)
    (h : _hasKeyPathSync cfg kp fs = (Except.ok r, fs2)) :
    ∃ d, _loadSettingsSync cfg fs = (Except.ok d, fs2) := by
  unfold _hasKeyPathSync at h
  rcases hl : _loadSettingsSync cfg fs with ⟨res, fs1⟩
  rw [hl] at h
  cases res with
  | error e => simp at h
  | ok d =>
      simp only [] at h
      refine ⟨d, ?_⟩
      have hfs : fs1 = fs2 := congrArg Prod.snd h
      rw [hfs]

/-- Every successful synchronous set leaves the file stat succeeding. -/
theorem setValueAtKeyPathSync_ok_fileStat (cfg : Config) (kp : Option (List Char))
    (v : Json) (fs fs2 : FS)
    (h : _setValueAtKeyPathSync cfg kp v fs = (Except.ok Unit.unit, fs2)) :
    fs2.fileStat = StatR.ok := by
  unfold _setValueAtKeyPathSync at h
  by_cases ht : truthyKeyPath kp
  · rw [if_pos ht] at h
    rcases hl : _loadSettingsSync cfg fs with ⟨res, fs1⟩
    rw [hl] at h
    cases res with
    | error e => simp at h
    | ok d =>
        simp only [] at h
        rw [saveSettingsSync_ok_inv cfg _ fs1 fs2 h]
  · rw [if_neg ht] at h
    rw [saveSettingsSync_ok_inv cfg _ fs fs2 h]

/-- Every successful synchronous delete leaves the file stat
succeeding. -/
theorem deleteValueAtKeyPathSync_ok_fileStat (cfg : Config) (kp : List Char)
    (fs fs2 : FS)
    (h : _deleteValueAtKeyPathSync cfg kp fs = (Except.ok Unit.unit, fs2)) :
    fs2.fileStat = StatR.ok := by
  unfold _deleteValueAtKeyPathSync at h
  rcases hl : _loadSettingsSync cfg fs with ⟨res, fs1⟩
  rw [hl] at h
  cases res with
  | error e => simp at h
  | ok d =>
      simp only [] at h
      rw [saveSettingsSync_ok_inv cfg _ fs1 fs2 h]

end ElectronSettings

/-- Claim C7: a store whose file is missing is initialized by the
first operation of any kind — the ensure step saves an empty-object
document, read-only `get`/`has` leave exactly that freshly created
file behind, any stat failure other than file-not-found propagates as
an error, and after every successfully completed operation the
settings file exists. -/
theorem claim_C7 :
    (∀ (cfg : Config) (fs : FS), fs.fileStat = StatR.enoent →
      fs.dirStat ≠ StatR.fail →
      ElectronSettings._ensureSettingsFileSync cfg fs =
        (Except.ok Unit.unit, ⟨StatR.ok, StatR.ok,
          ElectronSettings._prepareSettingsData cfg (Json.obj JsonObj.nil)⟩) ∧
      ElectronSettings._ensureSettingsFile cfg fs =
        (Except.ok Unit.unit, ⟨StatR.ok, StatR.ok,
          ElectronSettings._prepareSettingsData cfg (Json.obj JsonObj.nil)⟩)) ∧
    (∀ (cfg : Config) (fs : FS), fs.fileStat = StatR.fail →
      ElectronSettings._ensureSettingsFileSync cfg fs =
        (Except.error SErr.statFail, fs) ∧
      ElectronSettings._ensureSettingsFile cfg fs =
        (Except.error SErr.statFail, fs)) ∧
    (∀ (cfg : Config) (arg : Option Json) (fs : FS) (r : Option Json) (fs2 : FS),
      fs.fileStat = StatR.enoent →
      ElectronSettings.getSync cfg arg fs = (Except.ok r, fs2) →
      fs2 = ⟨StatR.ok, StatR.ok,
        ElectronSettings._prepareSettingsData cfg (Json.obj JsonObj.nil)⟩) ∧
    (∀ (cfg : Config) (a : Json) (fs : FS) (r : Bool) (fs2 : FS),
      fs.fileStat = StatR.enoent →
      ElectronSettings.hasSync cfg a fs = (Except.ok r, fs2) →
      fs2 = ⟨StatR.ok, StatR.ok,
        ElectronSettings._prepareSettingsData cfg (Json.obj JsonObj.nil)⟩) ∧
    (∀ (cfg : Config) (arg : Option Json) (fs : FS) (r : Option Json) (fs2 : FS),
      ElectronSettings.getSync cfg arg fs = (Except.ok r, fs2) →
      fs2.fileStat = StatR.ok) ∧
    (∀ (cfg : Config) (a : Json) (fs : FS) (r : Bool) (fs2 : FS),
      ElectronSettings.hasSync cfg a fs = (Except.ok r, fs2) →
      fs2.fileStat = StatR.ok) ∧
    (∀ (cfg : Config) (a1 a2 : Json) (fs fs2 : FS),
      ElectronSettings.setSync cfg a1 a2 fs = (Except.ok Unit.unit, fs2) →
      fs2.fileStat = StatR.ok) ∧
    (∀ (cfg : Config) (a : Json) (fs fs2 : FS),
      ElectronSettings.deleteSync cfg a fs = (Except.ok Unit.unit, fs2) →
      fs2.fileStat = StatR.ok) := by
  have hGet : ∀ (cfg : Config) (arg : Option Json) (fs : FS) (r : Option Json)
      (fs2 : FS), ElectronSettings.getSync cfg arg fs = (Except.ok r, fs2) →
      ∃ kp, ElectronSettings._getValueAtKeyPathSync cfg kp fs =
        (Except.ok r, fs2) := by
    intro cfg arg fs r fs2 hg
    cases arg with
    | none => exact ⟨none, hg⟩
    | some a =>
        by_cases ht : truthy (isKeyPath a) = true
        · refine ⟨some (coerceStr (flattenKeyPath a)), ?_⟩
          simpa [ElectronSettings.getSync, ht] using hg
        · refine ⟨none, ?_⟩
          have ht2 : truthy (isKeyPath a) = false := by simpa using ht
          simpa [ElectronSettings.getSync, ht2] using hg
  have hHas : ∀ (cfg : Config) (a : Json) (fs : FS) (r : Bool) (fs2 : FS),
      ElectronSettings.hasSync cfg a fs = (Except.ok r, fs2) →
      ElectronSettings._hasKeyPathSync cfg (coerceStr (flattenKeyPath a)) fs =
        (Except.ok r, fs2) := by
    intro cfg a fs r fs2 hg
    by_cases ht : truthy (isKeyPath a) = true
    · simpa [ElectronSettings.hasSync, ht] using hg
    · have ht2 : truthy (isKeyPath a) = false := by simpa using ht
      simp [ElectronSettings.hasSync, ht2] at hg
  have hEnsure : ∀ (cfg : Config) (fs : FS), fs.fileStat = StatR.enoent →
      fs.dirStat ≠ StatR.fail →
      ElectronSettings._ensureSettingsFileSync cfg fs =
        (Except.ok Unit.unit, ⟨StatR.ok, StatR.ok,
          ElectronSettings._prepareSettingsData cfg (Json.obj JsonObj.nil)⟩) := by
    intro cfg fs hf hd
    unfold ElectronSettings._ensureSettingsFileSync
    rw [hf]
    simp only []
    rw [ElectronSettings.saveSettingsSync_ok cfg _ fs hd]
  refine ⟨?_, ?_, ?_, ?_, ?_, ?_, ?_, ?_⟩
  · intro cfg fs hf hd
    exact ⟨hEnsure cfg fs hf hd,
      by rw [show ElectronSettings._ensureSettingsFile cfg fs =
          ElectronSettings._ensureSettingsFileSync cfg fs from rfl]
         exact hEnsure cfg fs hf hd⟩
  · intro cfg fs hf
    constructor
    · unfold ElectronSettings._ensureSettingsFileSync
      rw [hf]
    · rw [show ElectronSettings._ensureSettingsFile cfg fs =
        ElectronSettings._ensureSettingsFileSync cfg fs from rfl]
      unfold ElectronSettings._ensureSettingsFileSync
      rw [hf]
  · intro cfg arg fs r fs2 hf hg
    obtain ⟨kp, hgv⟩ := hGet cfg arg fs r fs2 hg
    obtain ⟨d, hload⟩ :=
      ElectronSettings.getValueAtKeyPathSync_ok_inv cfg kp fs r fs2 hgv
    exact ((ElectronSettings.loadSettingsSync_ok_inv cfg fs d fs2 hload).2.2 hf).1
  · intro cfg a fs r fs2 hf hg
    obtain ⟨d, hload⟩ :=
      ElectronSettings.hasKeyPathSync_ok_inv cfg _ fs r fs2 (hHas cfg a fs r fs2 hg)
    exact ((ElectronSettings.loadSettingsSync_ok_inv cfg fs d fs2 hload).2.2 hf).1
  · intro cfg arg fs r fs2 hg
    obtain ⟨kp, hgv⟩ := hGet cfg arg fs r fs2 hg
    obtain ⟨d, hload⟩ :=
      ElectronSettings.getValueAtKeyPathSync_ok_inv cfg kp fs r fs2 hgv
    exact (ElectronSettings.loadSettingsSync_ok_inv cfg fs d fs2 hload).1
  · intro cfg a fs r fs2 hg
    obtain ⟨d, hload⟩ :=
      ElectronSettings.hasKeyPathSync_ok_inv cfg _ fs r fs2 (hHas cfg a fs r fs2 hg)
    exact (ElectronSettings.loadSettingsSync_ok_inv cfg fs d fs2 hload).1
  · intro cfg a1 a2 fs fs2 hg
    by_cases ht : truthy (isKeyPath a1) = true
    · have hgv : ElectronSettings._setValueAtKeyPathSync cfg
          (some (coerceStr (flattenKeyPath a1))) a2 fs = (Except.ok Unit.unit, fs2) := by
        simpa [ElectronSettings.setSync, ht] using hg
      exact ElectronSettings.setValueAtKeyPathSync_ok_fileStat cfg _ a2 fs fs2 hgv
    · have ht2 : truthy (isKeyPath a1) = false := by simpa using ht
      have hgv : ElectronSettings._setValueAtKeyPathSync cfg none a1 fs =
          (Except.ok Unit.unit, fs2) := by
        simpa [ElectronSettings.setSync, ht2] using hg
      exact ElectronSettings.setValueAtKeyPathSync_ok_fileStat cfg none a1 fs fs2 hgv
  · intro cfg a fs fs2 hg
    by_cases ht : truthy (isKeyPath a) = true
    · have hgv : ElectronSettings._deleteValueAtKeyPathSync cfg
          (coerceStr (flattenKeyPath a)) fs = (Except.ok Unit.unit, fs2) := by
        simpa [ElectronSettings.deleteSync, ht] using hg
      exact ElectronSettings.deleteValueAtKeyPathSync_ok_fileStat cfg _ fs fs2 hgv
    · have ht2 : truthy (isKeyPath a) = false := by simpa using ht
      simp [ElectronSettings.deleteSync, ht2] at hg

/-- Claim C7 witness: ensuring the file on a missing-file store (both
conventions) creates it holding the encoded empty object. -/
theorem claim_C7_witness :
    ElectronSettings._ensureSettingsFileSync defaults ⟨StatR.ok, StatR.enoent, []⟩ =
      (Except.ok Unit.unit, ⟨StatR.ok, StatR.ok,
        ElectronSettings._prepareSettingsData defaults (Json.obj JsonObj.nil)⟩) ∧
    ElectronSettings._ensureSettingsFile defaults ⟨StatR.ok, StatR.enoent, []⟩ =
      (Except.ok Unit.unit, ⟨StatR.ok, StatR.ok,
        ElectronSettings._prepareSettingsData defaults (Json.obj JsonObj.nil)⟩) :=
  claim_C7.1 defaults ⟨StatR.ok, StatR.enoent, []⟩ rfl (by decide)

/-- Claim C8: when the stored bytes fail to decode (invalid JSON or a
decryption failure), a mutating `set` through a non-null key path and
every `delete` signal that error and terminate without any write,
leaving the file-system state — stats and stored bytes — exactly as it
was, in both calling conventions. -/
theorem claim_C8 (cfg : Config) (fs : FS) (e : SErr)
    (hok : fs.fileStat = StatR.ok)
    (hbad : ElectronSettings._reconstructSettingsData cfg fs.data = Except.error e) :
    (∀ (a1 a2 : Json), truthy (isKeyPath a1) = true →
      (coerceStr (flattenKeyPath a1)).isEmpty = false →
      ElectronSettings.set cfg a1 a2 fs = (Except.error e, fs) ∧
      ElectronSettings.setSync cfg a1 a2 fs = (Except.error e, fs)) ∧
    (∀ (a : Json), truthy (isKeyPath a) = true →
      ElectronSettings.delete cfg a fs = (Except.error e, fs) ∧
      ElectronSettings.deleteSync cfg a fs = (Except.error e, fs)) := by
  have hload : ElectronSettings._loadSettingsSync cfg fs = (Except.error e, fs) := by
    rw [ElectronSettings.loadSettingsSync_fileOk cfg fs hok, hbad]
  constructor
  · intro a1 a2 hkey hne
    have hsync : ElectronSettings.setSync cfg a1 a2 fs = (Except.error e, fs) := by
      simp only [ElectronSettings.setSync, hkey, if_true]
      unfold ElectronSettings._setValueAtKeyPathSync
      rw [if_pos (by simp [truthyKeyPath, hne])]
      rw [hload]
    exact ⟨by rw [show ElectronSettings.set cfg a1 a2 fs =
      ElectronSettings.setSync cfg a1 a2 fs from rfl]; exact hsync, hsync⟩
  · intro a hkey
    have hsync : ElectronSettings.deleteSync cfg a fs = (Except.error e, fs) := by
      simp only [ElectronSettings.deleteSync, hkey, if_true]
      unfold ElectronSettings._deleteValueAtKeyPathSync
      rw [hload]
    exact ⟨by rw [show ElectronSettings.delete cfg a fs =
      ElectronSettings.deleteSync cfg a fs from rfl]; exact hsync, hsync⟩

/-- Claim C8 witness: on a store whose file holds the invalid JSON
byte `x`, deleting the key `k` signals the codec error and leaves the
state untouched. -/
theorem claim_C8_witness :
    ElectronSettings.deleteSync defaults (Json.str ['k']) ⟨StatR.ok, StatR.ok, [120]⟩ =
      (Except.error SErr.parseFail, ⟨StatR.ok, StatR.ok, [120]⟩) :=
  ((claim_C8 defaults ⟨StatR.ok, StatR.ok, [120]⟩ SErr.parseFail rfl rfl).2
    (Json.str ['k']) (by decide)).2
